import Mathlib

/-!
Verification development for the broadcast benchmark skeleton
(`src/ics632/tutorial_sim_grid/topic2/bcast_skeleton.c`).

The C program is embedded shallowly:

* the chunking loop of the pipelined strategies (source lines 174-177 and
  its copies) becomes `chunkPlan` / `chunkVarFinal`;
* each strategy's per-rank sequence of point-to-point calls becomes a
  `List Op` (`naiveProg`, `ringProg`, `pipelinedRingProg`,
  `asyncPipelinedRingProg`, `bintreeProg`), transcribed from the branches of
  `main`;
* a deterministic executor (`runRanks`) runs the ranks over FIFO
  per-pair channels.  In every modelled strategy messages travel from a
  lower rank to a strictly higher rank, so executing the ranks in rank
  order is a linearisation of the happens-before order of any real
  execution and computes the same buffer contents;
* the request-handle discipline of the asynchronous strategies is analysed
  by `handleSim`, which tracks which `MPI_Isend` handles reach a wait;
* the checksum-collection loop, the chunk-size argument scan and the
  reporting guard become `drainChecksums`, `scanChunkArg` and
  `timingPrinted`.
-/

namespace Bcast

/-- A process buffer: the list of its byte values. -/
abbrev Buf := List Nat

/-- The sub-buffer `buffer+off .. buffer+off+len` handed to an MPI call. -/
def slice (b : Buf) (off len : Nat) : Buf := (b.drop off).take len

/-- Effect of `MPI_Recv(buffer+off, ...)` delivering message `m`: the bytes
at offsets `off .. off + m.length` are overwritten with `m`. -/
def writeAt (b : Buf) (off : Nat) (m : Buf) : Buf :=
  b.take off ++ m ++ b.drop (off + m.length)

/-- Sum of the chunk lengths of a chunk plan. -/
def lensSum (plan : List (Nat × Nat)) : Nat := plan.foldr (fun p s => p.2 + s) 0

/-- The plan is a gapless, overlap-free, positive-length cover starting at
offset `j`: each chunk starts where the previous one ended. -/
def contiguousFrom : Nat → List (Nat × Nat) → Prop
  | _, [] => True
  | j, p :: rest => p.1 = j ∧ 0 < p.2 ∧ contiguousFrom (j + p.2) rest

/-- One run of the source's chunking loop (lines 174-177, repeated verbatim
at lines 179-185, 190-193, 195-201 and 206-217): starting at offset `j` with
the current `chunk_size = cs`, record the `(offset, length)` of the chunk
passed to each iteration's MPI call.  The C test `j > NUM_BYTES - chunk_size`
over `int` is `total < j + cs` over `ℕ`; on that boundary the loop reassigns
`chunk_size = NUM_BYTES % chunk_size` before using it.  `fuel` bounds the
number of iterations; callers pass enough for the loop as the source runs
it. -/
def chunkPlanAux : Nat → Nat → Nat → Nat → List (Nat × Nat)
  | 0, _, _, _ => []
  | fuel + 1, total, cs, j =>
    if j < total then
      let cs' := if total < j + cs then total % cs else cs
      (j, cs') :: chunkPlanAux fuel total cs' (j + cs')
    else []

/-- The chunk plan of the source's chunking loop started at offset `0`. -/
def chunkPlan (total cs : Nat) : List (Nat × Nat) := chunkPlanAux (total + 1) total cs 0

/-- Final value of the mutated `chunk_size` variable after the chunking
loop (the value later printed by the root at source line 255). -/
def chunkVarAux : Nat → Nat → Nat → Nat → Nat
  | 0, _, cs, _ => cs
  | fuel + 1, total, cs, j =>
    if j < total then
      let cs' := if total < j + cs then total % cs else cs
      chunkVarAux fuel total cs' (j + cs')
    else cs

/-- The `chunk_size` variable's value when the chunking loop exits. -/
def chunkVarFinal (total cs : Nat) : Nat := chunkVarAux (total + 1) total cs 0

/-- The point-to-point operations a rank issues during the broadcast phase,
in program order.  `isend` records which request variable its handle is
stored in: the lone `MPI_Request request` of the asynchronous ring is slot
`0`; the binary tree's `request[0]` and `request[1]` are slots `0` and `1`.
`waitAll` is `MPI_Waitall(2, request, ...)`. -/
inductive Op where
  | send (dst off len : Nat)
  | recv (src off len : Nat)
  | isend (slot dst off len : Nat)
  | wait (slot : Nat)
  | waitAll
deriving DecidableEq

/-- FIFO channels: `chs s d` is the queue of messages sent by `s` to `d`
and not yet received, oldest first. -/
abbrev Chans := Nat → Nat → List Buf

/-- Effect of one operation executed by rank `r` in a group of `size`
processes.  A send-like operation enqueues a copy of the named sub-buffer,
failing on a destination outside the group (as MPI does); a receive dequeues
the oldest message from the named peer, failing when no message ever
arrives there or the size does not match the posted count; waits move no
data (their handle discipline is analysed separately by `handleSim`). -/
def runOp (size r : Nat) : Buf × Chans → Op → Option (Buf × Chans)
  | (buf, chs), Op.send dst off len =>
    if dst < size then
      some (buf, fun a b => if a = r ∧ b = dst then chs a b ++ [slice buf off len] else chs a b)
    else none
  | (buf, chs), Op.isend _ dst off len =>
    if dst < size then
      some (buf, fun a b => if a = r ∧ b = dst then chs a b ++ [slice buf off len] else chs a b)
    else none
  | (buf, chs), Op.recv src off len =>
    match chs src r with
    | [] => none
    | m :: rest =>
      if m.length = len then
        some (writeAt buf off m, fun a b => if a = src ∧ b = r then rest else chs a b)
      else none
  | (buf, chs), Op.wait _ => some (buf, chs)
  | (buf, chs), Op.waitAll => some (buf, chs)

/-- Run a rank's operation list from a given local state. -/
def runOps (size r : Nat) : List Op → Buf × Chans → Option (Buf × Chans)
  | [], st => some st
  | op :: ops, st =>
    match runOp size r st op with
    | none => none
    | some st' => runOps size r ops st'

/-- Run the listed ranks in order, each over its own buffer and the shared
channels. -/
def runRanksAux (size : Nat) (progOf : Nat → List Op) :
    List Nat → List Buf × Chans → Option (List Buf × Chans)
  | [], st => some st
  | r :: rs, (bufs, chs) =>
    match runOps size r (progOf r) (bufs.getD r [], chs) with
    | none => none
    | some (buf', chs') => runRanksAux size progOf rs (bufs.set r buf', chs')

/-- Execute the broadcast phase: every rank runs its program.  Ranks are run
in rank order; in all the modelled strategies every message travels from a
lower to a strictly higher rank, so rank order linearises the
happens-before order of any real execution and produces the same buffer
contents. -/
def runRanks (size : Nat) (progOf : Nat → List Op) (bufs : List Buf) : Option (List Buf) :=
  match runRanksAux size progOf (List.range size) (bufs, fun _ _ => []) with
  | none => none
  | some (bufs', _) => some bufs'

/-- naive_bcast (source lines 155-162): rank 0 sends the whole buffer to
ranks `1 .. size-1` in order; every other rank posts one blocking receive
from rank 0. -/
def naiveProg (size numBytes rank : Nat) : List Op :=
  if rank = 0 then (List.range' 1 (size - 1)).map fun j => Op.send j 0 numBytes
  else [Op.recv 0 0 numBytes]

/-- ring_bcast (source lines 163-171): rank 0 sends the whole buffer to
`rank+1` (unconditionally, even when no such rank exists); every other rank
receives the whole buffer from `rank-1` and, unless it is the last rank,
forwards it to `rank+1`. -/
def ringProg (size numBytes rank : Nat) : List Op :=
  if rank = 0 then [Op.send (rank + 1) 0 numBytes]
  else
    Op.recv (rank - 1) 0 numBytes ::
      (if rank ≠ size - 1 then [Op.send (rank + 1) 0 numBytes] else [])

/-- pipelined_ring_bcast (source lines 172-186): same ring, but chunk by
chunk per the chunking loop; each non-terminal rank alternates a blocking
receive and a blocking forward of each chunk. -/
def pipelinedRingProg (size numBytes cs rank : Nat) : List Op :=
  if rank = 0 then (chunkPlan numBytes cs).map fun p => Op.send (rank + 1) p.1 p.2
  else
    (chunkPlan numBytes cs).flatMap fun p =>
      Op.recv (rank - 1) p.1 p.2 ::
        (if rank ≠ size - 1 then [Op.send (rank + 1) p.1 p.2] else [])

/-- asynchronous_pipelined_ring_bcast (source lines 187-203): as the
pipelined ring but forwards with `MPI_Isend` into the single `request`
variable (slot 0); every non-root rank executes one `MPI_Wait(&request)`
after its loop — the root never waits. -/
def asyncPipelinedRingProg (size numBytes cs rank : Nat) : List Op :=
  if rank = 0 then (chunkPlan numBytes cs).map fun p => Op.isend 0 (rank + 1) p.1 p.2
  else
    ((chunkPlan numBytes cs).flatMap fun p =>
      Op.recv (rank - 1) p.1 p.2 ::
        (if rank ≠ size - 1 then [Op.isend 0 (rank + 1) p.1 p.2] else []))
    ++ [Op.wait 0]

/-- asynchronous_pipelined_bintree_bcast (source lines 204-219): per chunk,
every non-root rank receives from `(rank-1)/2`, then isends to child
`rank*2+1` (into `request[0]`) and child `rank*2+2` (into `request[1]`)
when those ranks exist; after the loop every rank executes
`MPI_Waitall(2, request, ...)`. -/
def bintreeProg (size numBytes cs rank : Nat) : List Op :=
  ((chunkPlan numBytes cs).flatMap fun p =>
    (if rank ≠ 0 then [Op.recv ((rank - 1) / 2) p.1 p.2] else [])
    ++ (if rank * 2 + 1 < size then [Op.isend 0 (rank * 2 + 1) p.1 p.2] else [])
    ++ (if rank * 2 + 2 < size then [Op.isend 1 (rank * 2 + 2) p.1 p.2] else []))
  ++ [Op.waitAll]

/-- Modelled from the spec: default_bcast delegates the whole buffer to the
external messaging substrate's built-in collective (`MPI_Bcast`, source
line 154), which delivers the root's buffer to every process. -/
def defaultBcastRun (bufs : List Buf) : List Buf :=
  bufs.map fun _ => bufs.getD 0 []

/-- Common per-rank shape of the point-to-point strategies: for each chunk
of the plan, optionally receive it from `src`, then pass it on to each
`(slot, dst)` of `dsts` — blocking sends when `useI = false`, `isend`
otherwise. -/
def nodeOps (src : Option Nat) (useI : Bool) (dsts : List (Nat × Nat))
    (plan : List (Nat × Nat)) : List Op :=
  plan.flatMap fun p =>
    (match src with
     | some s => [Op.recv s p.1 p.2]
     | none => []) ++
    dsts.map fun sd => if useI then Op.isend sd.1 sd.2 p.1 p.2 else Op.send sd.2 p.1 p.2

/-- Message sequence a relaying rank emits: each chunk of the plan, cut out
of `srcBuf`. -/
def planSlices (srcBuf : Buf) (plan : List (Nat × Nat)) : List Buf :=
  plan.map fun p => slice srcBuf p.1 p.2

/-- How many entries of `dsts` target destination `b`. -/
def countDst (dsts : List (Nat × Nat)) (b : Nat) : Nat :=
  (dsts.filter fun sd => sd.2 == b).length

/-- Waits move no data. -/
def isNoop : Op → Bool
  | Op.wait _ => true
  | Op.waitAll => true
  | _ => false

/-- Does an operation list contain a receive? -/
def isRecvOp : Op → Bool
  | Op.recv _ _ _ => true
  | _ => false

/-- Whether a rank's program posts any receive into its own buffer. -/
def hasRecv (ops : List Op) : Bool := ops.any isRecvOp

/-- State of the request-handle bookkeeping: `nextId` counts the isends
issued so far (and is the next fresh handle id); `slot0`/`slot1` hold the
handle currently stored in `request` (or `request[0]`) and `request[1]`
(`none` when uninitialised or already consumed); `waited` lists the handles
passed to a wait, in order; `badWaits` counts waits executed on a slot no
isend had initialised. -/
structure HState where
  nextId : Nat
  slot0 : Option Nat
  slot1 : Option Nat
  waited : List Nat
  badWaits : Nat
deriving DecidableEq

def initH : HState := ⟨0, none, none, [], 0⟩

/-- Waiting on one request slot: consume and record its current handle, or
count a wait on an uninitialised slot. -/
def hWait (st : HState) (slot : Nat) : HState :=
  match (if slot = 0 then st.slot0 else st.slot1) with
  | some i =>
    { st with
      waited := st.waited ++ [i],
      slot0 := if slot = 0 then none else st.slot0,
      slot1 := if slot = 0 then st.slot1 else none }
  | none => { st with badWaits := st.badWaits + 1 }

/-- Handle effect of one operation: an isend stores a fresh handle into its
request slot, overwriting whatever was there; `wait` waits on the slot it
names; `waitAll` (`MPI_Waitall(2, request, ...)`) waits slot 0 then slot 1;
data operations leave the handle state alone. -/
def hStep (st : HState) : Op → HState
  | Op.isend slot _ _ _ =>
    if slot = 0 then { st with nextId := st.nextId + 1, slot0 := some st.nextId }
    else { st with nextId := st.nextId + 1, slot1 := some st.nextId }
  | Op.wait slot => hWait st slot
  | Op.waitAll => hWait (hWait st 0) 1
  | _ => st

/-- The handle history of one rank's program. -/
def handleSim (ops : List Op) : HState := ops.foldl hStep initH

/-- Number of children whose send guards fire for a rank in the binary tree
(source lines 211 and 214). -/
def childCount (size r : Nat) : Nat :=
  (if r * 2 + 1 < size then 1 else 0) + (if r * 2 + 2 < size then 1 else 0)

/-- The property claimed of every strategy: every isend handle the rank
created is eventually passed to a wait. -/
def allIsendsWaited (ops : List Op) : Bool :=
  (List.range (handleSim ops).nextId).all fun i => (handleSim ops).waited.contains i

/-- Soundness of the handle state: waited handles were really created, none
is waited twice, and the slots hold distinct unwaited created handles. -/
def hInv (st : HState) : Prop :=
  (∀ i ∈ st.waited, i < st.nextId) ∧ st.waited.Nodup ∧
  (∀ i, st.slot0 = some i → i < st.nextId ∧ i ∉ st.waited) ∧
  (∀ i, st.slot1 = some i → i < st.nextId ∧ i ∉ st.waited) ∧
  (∀ i j, st.slot0 = some i → st.slot1 = some j → i ≠ j)

/-- Parent link used by the binary-tree strategy (source line 209): the C
expression `(rank-1)/2` under C's truncating integer division; at `rank = 0`
C computes `(-1)/2 = 0`, which ℕ subtraction and division also give, so this
ℕ form agrees with the C expression at every rank. -/
def treeParent (rank : Nat) : Nat := (rank - 1) / 2

/-- The child-send guards of the binary-tree strategy (source lines 211 and
214): rank `r` sends to `c` exactly when `c` is `r*2+1` or `r*2+2` and `c`
is inside the group. -/
def isTreeChild (size r c : Nat) : Bool :=
  (c == r * 2 + 1 || c == r * 2 + 2) && decide (c < size)

/-- The root's checksum-collection loop (source lines 229-241): receive the
next checksum; on the first mismatch print the one-line diagnostic, set
`all_ok = 0` and `break` out of the loop.  The argument list holds the
incoming checksums in arrival order (`MPI_ANY_SOURCE`); the result is the
final `all_ok` flag and how many of the pending checksum messages the loop
actually received. -/
def drainChecksums (reference : Int) : List Int → Bool × Nat
  | [] => (true, 0)
  | c :: rest =>
    if reference = c then
      ((drainChecksums reference rest).1, (drainChecksums reference rest).2 + 1)
    else (false, 1)

/-- The fixed payload size of the program (source line 12). -/
def NUM_BYTES : Int := 100000000

/-- Decimal integer parsing as `sscanf("%d")` accepts it (used at source
line 99): skip leading whitespace, read an optional sign and then at least
one digit, ignoring trailing characters; assign nothing (parse failure)
when no digit is found. -/
def parseIntC (s : String) : Option Int :=
  let cs := s.toList.dropWhile fun c => c == ' ' || c == '\t' || c == '\n'
  let signed : Bool × List Char :=
    match cs with
    | '-' :: t => (true, t)
    | '+' :: t => (false, t)
    | _ => (false, cs)
  let ds := signed.2.takeWhile Char.isDigit
  if ds = [] then none
  else
    let v : Nat := ds.foldl (fun a c => a * 10 + (c.toNat - 48)) 0
    some (if signed.1 then -(v : Int) else (v : Int))

/-- The chunk-size option scan (source lines 97-103): walk the arguments
from `argv[1]`; at each `-c`, abort unless a following argument exists and
parses as an integer, in which case `chunk_size` is overwritten with the
parsed value.  No sign or magnitude check is performed. -/
def scanChunkArg : List String → Int → Option Int
  | [], cur => some cur
  | a :: rest, cur =>
    if a = "-c" then
      match rest with
      | [] => none
      | b :: _ =>
        match parseIntC b with
        | none => none
        | some v => scanChunkArg rest v
    else scanChunkArg rest cur

/-- The chunk size with which a run leaves configuration validation:
`argv[1:]` scanned with the default `chunk_size = NUM_BYTES` (source
line 67). -/
def chunkSizeConfig (progArgs : List String) : Option Int :=
  scanChunkArg progArgs NUM_BYTES

/-- Whether every `-c` occurrence is followed by an argument `sscanf` can
parse as an integer — the only condition the source's scan checks. -/
def wellFormedChunkArgs : List String → Bool
  | [] => true
  | a :: rest =>
    if a = "-c" then
      match rest with
      | [] => false
      | b :: _ => (parseIntC b).isSome && wellFormedChunkArgs rest
    else wellFormedChunkArgs rest

/-- The reporting guard (source line 252): `(0 == rank) && all_ok`. -/
def timingPrinted (rank : Nat) (allOk : Bool) : Bool := (rank == 0) && allOk

/-- The chunksize field the root prints (source line 255) is the value of
the mutated `chunk_size` variable after the broadcast phase: for the
chunked strategies, whatever the chunking loop left behind. -/
def printedChunkSize (total cs : Nat) : Nat := chunkVarFinal total cs

theorem chunkPlanAux_stop (fuel total cs j : Nat) (h : total ≤ j) :
    chunkPlanAux fuel total cs j = [] := by
  cases fuel with
  | zero => rfl
  | succ fuel => simp [chunkPlanAux, Nat.not_lt.mpr h]

theorem chunkVarAux_stop (fuel total cs j : Nat) (h : total ≤ j) :
    chunkVarAux fuel total cs j = cs := by
  cases fuel with
  | zero => rfl
  | succ fuel => simp [chunkVarAux, Nat.not_lt.mpr h]

theorem chunkPlanAux_spec (fuel : Nat) :
    ∀ total cs j, (total ≤ j ∨ (cs ∣ j ∧ 0 < cs)) → total ≤ j + fuel →
      contiguousFrom j (chunkPlanAux fuel total cs j) ∧
      lensSum (chunkPlanAux fuel total cs j) = total - j := by
  induction fuel with
  | zero =>
    intro total cs j _ hf
    simp only [chunkPlanAux, lensSum, contiguousFrom, List.foldr_nil]
    exact ⟨trivial, by omega⟩
  | succ fuel ih =>
    intro total cs j h hf
    by_cases hj : j < total
    · have hdvd : cs ∣ j ∧ 0 < cs := by
        rcases h with h | h
        · omega
        · exact h
      obtain ⟨⟨q, hq⟩, hcs⟩ := hdvd
      by_cases htr : total < j + cs
      · have hrem : total % cs = total - j := by
          have h1 : total = cs * q + (total - j) := by omega
          have h2 : total - j < cs := by omega
          calc total % cs = (cs * q + (total - j)) % cs := by rw [← h1]
            _ = (total - j) % cs := by rw [Nat.mul_add_mod]
            _ = total - j := Nat.mod_eq_of_lt h2
        have hrec : chunkPlanAux fuel total (total % cs) (j + total % cs) = [] := by
          apply chunkPlanAux_stop
          omega
        simp only [chunkPlanAux, if_pos hj, if_pos htr, hrec]
        refine ⟨⟨rfl, by omega, trivial⟩, ?_⟩
        simp only [lensSum, List.foldr_cons, List.foldr_nil]
        omega
      · have hle : j + cs ≤ total := by omega
        have ihr := ih total cs (j + cs)
          (Or.inr ⟨⟨q + 1, by rw [Nat.mul_succ]; omega⟩, hcs⟩) (by omega)
        simp only [chunkPlanAux, if_pos hj, if_neg htr]
        refine ⟨⟨rfl, hcs, ihr.1⟩, ?_⟩
        simp only [lensSum, List.foldr_cons] at ihr ⊢
        omega
    · constructor
      · rw [chunkPlanAux_stop (fuel + 1) total cs j (by omega)]
        trivial
      · rw [chunkPlanAux_stop (fuel + 1) total cs j (by omega)]
        simp [lensSum]
        omega

theorem chunkPlan_spec (total cs : Nat) (hcs : 1 ≤ cs) :
    contiguousFrom 0 (chunkPlan total cs) ∧ lensSum (chunkPlan total cs) = total := by
  have h := chunkPlanAux_spec (total + 1) total cs 0
    (Or.inr ⟨Dvd.intro 0 rfl, hcs⟩) (by omega)
  simpa [chunkPlan] using h

theorem chunkVarAux_spec (fuel : Nat) :
    ∀ total cs j, cs ∣ j → 0 < cs → j < total → total ≤ j + fuel →
      chunkVarAux fuel total cs j = if total % cs = 0 then cs else total % cs := by
  induction fuel with
  | zero => intro total cs j _ _ hj hf; omega
  | succ fuel ih =>
    intro total cs j hdvd hcs hj hf
    obtain ⟨q, hq⟩ := hdvd
    by_cases htr : total < j + cs
    · have hrem : total % cs = total - j := by
        have h1 : total = cs * q + (total - j) := by omega
        have h2 : total - j < cs := by omega
        calc total % cs = (cs * q + (total - j)) % cs := by rw [← h1]
          _ = (total - j) % cs := by rw [Nat.mul_add_mod]
          _ = total - j := Nat.mod_eq_of_lt h2
      have hne : total % cs ≠ 0 := by omega
      simp only [chunkVarAux, if_pos hj, if_pos htr,
        chunkVarAux_stop fuel total (total % cs) (j + total % cs) (by omega)]
      simp [hne]
    · have hle : j + cs ≤ total := by omega
      by_cases hend : j + cs < total
      · have ihr := ih total cs (j + cs) ⟨q + 1, by rw [Nat.mul_succ]; omega⟩ hcs hend (by omega)
        simp only [chunkVarAux, if_pos hj, if_neg htr]
        exact ihr
      · have heq : total = j + cs := by omega
        have hmod : total % cs = 0 := by
          have h3 : total = cs * (q + 1) := by rw [Nat.mul_succ]; omega
          simp [h3, Nat.mul_mod_right]
        simp only [chunkVarAux, if_pos hj, if_neg htr,
          chunkVarAux_stop fuel total cs (j + cs) (by omega)]
        simp [hmod]

theorem chunkVarFinal_spec (total cs : Nat) (ht : 1 ≤ total) (hcs : 1 ≤ cs) :
    chunkVarFinal total cs = if total % cs = 0 then cs else total % cs := by
  have h := chunkVarAux_spec (total + 1) total cs 0
    (Dvd.intro 0 rfl) hcs (by omega) (by omega)
  simpa [chunkVarFinal] using h

/-- A nonempty byte range yields a nonempty chunk plan, and its first chunk
starts at offset `0`. -/
theorem chunkPlan_head (total cs : Nat) (ht : 1 ≤ total) :
    ∃ c rest, chunkPlan total cs = (0, c) :: rest := by
  simp only [chunkPlan, chunkPlanAux, if_pos (by omega : 0 < total)]
  exact ⟨_, _, rfl⟩

/-- C3: for every `total_bytes ≥ 1` and `chunk_size ≥ 1`, the plan traced by
the source's chunking loop is a sequence of chunks in increasing offset
order with no gaps or overlaps, every length strictly positive, the lengths
summing exactly to `total_bytes`; concretely, `total_bytes = 16` with
`chunk_size = 5` yields `[(0,5), (5,5), (10,5), (15,1)]`. -/
theorem c3_chunk_plan_covers (total cs : Nat) (ht : 1 ≤ total) (hcs : 1 ≤ cs) :
    contiguousFrom 0 (chunkPlan total cs) ∧
    lensSum (chunkPlan total cs) = total ∧
    chunkPlan 16 5 = [(0, 5), (5, 5), (10, 5), (15, 1)] := by
  obtain ⟨h1, h2⟩ := chunkPlan_spec total cs hcs
  exact ⟨h1, h2, by decide⟩

theorem runOps_append (size r : Nat) (ops₁ ops₂ : List Op) :
    ∀ st, runOps size r (ops₁ ++ ops₂) st =
      match runOps size r ops₁ st with
      | none => none
      | some st' => runOps size r ops₂ st' := by
  induction ops₁ with
  | nil => intro st; rfl
  | cons op ops ih =>
    intro st
    simp only [List.cons_append, runOps]
    cases runOp size r st op with
    | none => rfl
    | some st' => exact ih st'

theorem runOps_noops (size r : Nat) :
    ∀ ops st, (∀ op ∈ ops, isNoop op = true) → runOps size r ops st = some st := by
  intro ops
  induction ops with
  | nil => intro st _; rfl
  | cons op ops ih =>
    intro st h
    have hop := h op (List.mem_cons_self op ops)
    match op, hop with
    | Op.wait s, _ =>
      simpa [runOps, runOp] using ih st fun o ho => h o (List.mem_cons_of_mem _ ho)
    | Op.waitAll, _ =>
      simpa [runOps, runOp] using ih st fun o ho => h o (List.mem_cons_of_mem _ ho)

theorem lensSum_cons (p : Nat × Nat) (rest : List (Nat × Nat)) :
    lensSum (p :: rest) = p.2 + lensSum rest := rfl

theorem planSlices_cons (b : Buf) (p : Nat × Nat) (rest : List (Nat × Nat)) :
    planSlices b (p :: rest) = slice b p.1 p.2 :: planSlices b rest := rfl

theorem slice_length (b : Buf) (off len : Nat) (h : off + len ≤ b.length) :
    (slice b off len).length = len := by
  simp only [slice, List.length_take, List.length_drop]
  omega

theorem slice_all (b : Buf) : slice b 0 b.length = b := by
  simp [slice]

theorem writeAt_length (b : Buf) (j : Nat) (m : Buf) (h : j + m.length ≤ b.length) :
    (writeAt b j m).length = b.length := by
  simp only [writeAt, List.length_append, List.length_take, List.length_drop]
  omega

theorem writeAt_take (b : Buf) (j : Nat) (m : Buf) (h : j ≤ b.length) :
    (writeAt b j m).take (j + m.length) = b.take j ++ m := by
  have hA : (b.take j ++ m).length = j + m.length := by
    simp only [List.length_append, List.length_take]
    omega
  have hw : writeAt b j m = (b.take j ++ m) ++ b.drop (j + m.length) := by
    simp [writeAt]
  rw [hw, List.take_append_eq_append_take, hA, List.take_of_length_le (le_of_eq hA)]
  simp

theorem slice_take (x : Buf) (j l : Nat) : (x.take (j + l)).drop j = slice x j l := by
  rw [List.drop_take]
  simp [slice]

theorem slice_congr (x y : Buf) (j l : Nat) (h : x.take (j + l) = y.take (j + l)) :
    slice x j l = slice y j l := by
  rw [← slice_take, ← slice_take, h]

theorem take_mono_of_take_eq (x y : Buf) (j l : Nat) (h : x.take (j + l) = y.take (j + l)) :
    x.take j = y.take j := by
  have : (x.take (j + l)).take j = (y.take (j + l)).take j := by rw [h]
  simpa [List.take_take, Nat.min_le_left, Nat.min_eq_left (by omega : j ≤ j + l)] using this

theorem getD_set_self (l : List Buf) (i : Nat) (v d : Buf) (h : i < l.length) :
    (l.set i v).getD i d = v := by
  simp [List.getD, List.getElem?_set, h]

theorem getD_set_ne (l : List Buf) (i j : Nat) (v d : Buf) (h : i ≠ j) :
    (l.set i v).getD j d = l.getD j d := by
  simp [List.getD, List.getElem?_set, h]

theorem runOps_sends (size r o l : Nat) (useI : Bool) :
    ∀ (dsts : List (Nat × Nat)) (buf : Buf) (chs : Chans),
      (∀ sd ∈ dsts, sd.2 < size) →
      ∃ chs',
        runOps size r
          (dsts.map fun sd => if useI then Op.isend sd.1 sd.2 o l else Op.send sd.2 o l)
          (buf, chs) = some (buf, chs') ∧
        ∀ a b, chs' a b = chs a b ++
          (if a = r then List.replicate (countDst dsts b) (slice buf o l) else []) := by
  intro dsts
  induction dsts with
  | nil =>
    intro buf chs _
    refine ⟨chs, rfl, ?_⟩
    intro a b
    simp [countDst]
  | cons sd rest ih =>
    intro buf chs hd
    have hsd : sd.2 < size := hd sd (List.mem_cons_self sd rest)
    have hstep :
        runOp size r (buf, chs) (if useI then Op.isend sd.1 sd.2 o l else Op.send sd.2 o l)
          = some (buf, fun a b =>
              if a = r ∧ b = sd.2 then chs a b ++ [slice buf o l] else chs a b) := by
      cases useI <;> simp [runOp, hsd]
    obtain ⟨chs', hrun, hch⟩ := ih buf
      (fun a b => if a = r ∧ b = sd.2 then chs a b ++ [slice buf o l] else chs a b)
      (fun x hx => hd x (List.mem_cons_of_mem _ hx))
    refine ⟨chs', ?_, ?_⟩
    · simpa only [List.map_cons, runOps, hstep] using hrun
    · intro a b
      rw [hch a b]
      by_cases ha : a = r
      · subst ha
        by_cases hb : b = sd.2
        · subst hb
          simp [countDst, List.replicate_succ, List.filter_cons]
        · simp only [countDst, List.filter_cons]
          have hbne : (sd.2 == b) = false := by
            simp [Ne.symm hb]
          simp [hbne, hb]
      · simp [ha]

theorem runOps_nodeOps (size r : Nat) (src : Option Nat) (useI : Bool)
    (dsts : List (Nat × Nat)) (rootBuf : Buf) :
    ∀ (plan : List (Nat × Nat)) (j : Nat) (buf : Buf) (chs : Chans),
      contiguousFrom j plan →
      j + lensSum plan = rootBuf.length →
      buf.length = rootBuf.length →
      (∀ s, src = some s → s ≠ r ∧ chs s r = planSlices rootBuf plan) →
      (src = none → buf = rootBuf) →
      buf.take j = rootBuf.take j →
      (∀ sd ∈ dsts, sd.2 < size) →
      ∃ chs',
        runOps size r (nodeOps src useI dsts plan) (buf, chs) = some (rootBuf, chs') ∧
        ∀ a b, chs' a b =
          (if src = some a ∧ b = r then [] else chs a b) ++
          (if a = r then
            (planSlices rootBuf plan).flatMap
              (fun m => List.replicate (countDst dsts b) m)
           else []) := by
  intro plan
  induction plan with
  | nil =>
    intro j buf chs _ hsum hlen hsrc hnone hpre _
    have hbuf : buf = rootBuf := by
      cases src with
      | none => exact hnone rfl
      | some s =>
        have hj : j = rootBuf.length := by simpa [lensSum] using hsum
        calc buf = buf.take j := by rw [hj, ← hlen, List.take_length]
          _ = rootBuf.take j := hpre
          _ = rootBuf := by rw [hj, List.take_length]
    refine ⟨chs, ?_, ?_⟩
    · simp [nodeOps, runOps, hbuf]
    · intro a b
      simp only [planSlices, List.map_nil, List.flatMap_nil, ite_self, List.append_nil]
      by_cases hc : src = some a ∧ b = r
      · have h2 := (hsrc a hc.1).2
        simp only [planSlices, List.map_nil] at h2
        rw [if_pos hc, hc.2, h2]
      · rw [if_neg hc]
  | cons p rest ih =>
    intro j buf chs hcont hsum hlen hsrc hnone hpre hd
    simp only [contiguousFrom] at hcont
    obtain ⟨hp1, hp2, hcont'⟩ := hcont
    have hsumr : (j + p.2) + lensSum rest = rootBuf.length := by
      rw [lensSum_cons] at hsum
      omega
    have hjl : j + p.2 ≤ rootBuf.length := by omega
    have hjle : j ≤ buf.length := by omega
    have hmlen : (slice rootBuf j p.2).length = p.2 := slice_length rootBuf j p.2 hjl
    cases src with
    | some s =>
      obtain ⟨hsr, hchs⟩ := hsrc s rfl
      rw [planSlices_cons, hp1] at hchs
      -- effect of the receive of this chunk
      have hrecv :
          runOp size r (buf, chs) (Op.recv s p.1 p.2)
            = some (writeAt buf j (slice rootBuf j p.2),
                fun a b => if a = s ∧ b = r then planSlices rootBuf rest else chs a b) := by
        have hred : runOp size r (buf, chs) (Op.recv s p.1 p.2)
            = match chs s r with
              | [] => none
              | m :: ms =>
                if m.length = p.2 then
                  some (writeAt buf p.1 m, fun a b => if a = s ∧ b = r then ms else chs a b)
                else none := rfl
        rw [hred, hchs, hp1]
        simp [hmlen]
      have hlen₁ : (writeAt buf j (slice rootBuf j p.2)).length = rootBuf.length := by
        rw [writeAt_length buf j (slice rootBuf j p.2) (by rw [hmlen]; omega), hlen]
      have hpre₁ : (writeAt buf j (slice rootBuf j p.2)).take (j + p.2)
          = rootBuf.take (j + p.2) := by
        have h1 := writeAt_take buf j (slice rootBuf j p.2) hjle
        rw [hmlen] at h1
        rw [h1, hpre, List.take_add]
        rfl
      -- effect of the forwarding sends of this chunk
      obtain ⟨chs₂, hsends, hch₂⟩ := runOps_sends size r p.1 p.2 useI dsts
        (writeAt buf j (slice rootBuf j p.2))
        (fun a b => if a = s ∧ b = r then planSlices rootBuf rest else chs a b) hd
      have hsl : slice (writeAt buf j (slice rootBuf j p.2)) p.1 p.2
          = slice rootBuf j p.2 := by
        rw [hp1]
        exact slice_congr _ rootBuf j p.2 hpre₁
      -- the rest of the plan
      have hsrc₂ : ∀ s', some s = some s' →
          s' ≠ r ∧ chs₂ s' r = planSlices rootBuf rest := by
        intro s' hs'
        have hss : s = s' := by injection hs'
        subst hss
        refine ⟨hsr, ?_⟩
        rw [hch₂ s r, if_neg hsr]
        simp
      obtain ⟨chs₃, hrun₃, hch₃⟩ := ih (j + p.2) (writeAt buf j (slice rootBuf j p.2)) chs₂
        hcont' hsumr hlen₁ hsrc₂ (fun h => nomatch h) hpre₁ hd
      refine ⟨chs₃, ?_, ?_⟩
      · have hshape : nodeOps (some s) useI dsts (p :: rest)
            = Op.recv s p.1 p.2 ::
              ((dsts.map fun sd =>
                  if useI then Op.isend sd.1 sd.2 p.1 p.2 else Op.send sd.2 p.1 p.2)
                ++ nodeOps (some s) useI dsts rest) := by
          simp [nodeOps, List.flatMap_cons]
        rw [hshape]
        simp only [runOps, hrecv]
        rw [runOps_append, hsends]
        exact hrun₃
      · intro a b
        rw [hch₃ a b, hch₂ a b, hsl]
        have hplan : planSlices rootBuf (p :: rest)
            = slice rootBuf j p.2 :: planSlices rootBuf rest := by
          rw [planSlices_cons, hp1]
        rw [hplan, List.flatMap_cons]
        by_cases har : a = r
        · have hsa : s ≠ a := fun h => hsr (h.trans har)
          have h1 : ¬ (some s = some a ∧ b = r) := by
            intro hx
            exact hsa (by injection hx.1)
          have h2 : ¬ (a = s ∧ b = r) := by
            intro hx
            exact hsa hx.1.symm
          rw [if_neg h1, if_neg h1, if_neg h2, if_pos har, if_pos har, if_pos har,
            List.append_assoc]
        · by_cases hc : some s = some a ∧ b = r
          · rw [if_pos hc, if_pos hc, if_neg har, if_neg har]
          · have h2 : ¬ (a = s ∧ b = r) := by
              intro hx
              exact hc ⟨by rw [hx.1], hx.2⟩
            rw [if_neg hc, if_neg hc, if_neg h2, if_neg har, if_neg har, if_neg har]
            simp
    | none =>
      have hbuf : buf = rootBuf := hnone rfl
      subst hbuf
      obtain ⟨chs₂, hsends, hch₂⟩ := runOps_sends size r p.1 p.2 useI dsts buf chs hd
      obtain ⟨chs₃, hrun₃, hch₃⟩ := ih (j + p.2) buf chs₂
        hcont' hsumr rfl (fun s h => nomatch h) (fun _ => rfl) rfl hd
      refine ⟨chs₃, ?_, ?_⟩
      · have hshape : nodeOps none useI dsts (p :: rest)
            = (dsts.map fun sd =>
                if useI then Op.isend sd.1 sd.2 p.1 p.2 else Op.send sd.2 p.1 p.2)
              ++ nodeOps none useI dsts rest := by
          simp [nodeOps, List.flatMap_cons]
        rw [hshape, runOps_append, hsends]
        exact hrun₃
      · intro a b
        rw [hch₃ a b, hch₂ a b]
        have hplan : planSlices buf (p :: rest)
            = slice buf j p.2 :: planSlices buf rest := by
          rw [planSlices_cons, hp1]
        rw [hplan, List.flatMap_cons]
        have hfalse : ¬ ((none : Option Nat) = some a ∧ b = r) := by
          intro hx
          exact nomatch hx.1
        rw [if_neg hfalse, if_neg hfalse]
        by_cases har : a = r
        · subst har
          rw [if_pos rfl, if_pos rfl, if_pos rfl, hp1]
          simp [List.append_assoc]
        · rw [if_neg har, if_neg har, if_neg har]
          simp

theorem flatMap_congrFun {α β : Type} (l : List α) (f g : α → List β)
    (h : ∀ p, f p = g p) : l.flatMap f = l.flatMap g := by
  induction l with
  | nil => rfl
  | cons x xs ih => simp [List.flatMap_cons, h x, ih]

theorem flatMap_replicate_one (l : List Buf) :
    (l.flatMap fun m => List.replicate 1 m) = l := by
  induction l with
  | nil => rfl
  | cons x xs ih => simp [List.flatMap_cons, ih, List.replicate]

theorem flatMap_replicate_zero (l : List Buf) :
    (l.flatMap fun m => List.replicate 0 m) = [] := by
  induction l with
  | nil => rfl
  | cons x xs ih => simp [List.flatMap_cons, ih, List.replicate]

theorem flatMap_map_singleton {α β : Type} (l : List α) (f : α → β) :
    (l.flatMap fun p => [f p]) = l.map f := by
  induction l with
  | nil => rfl
  | cons x xs ih => simp [List.flatMap_cons, ih]

theorem filter_beq_range' (b : Nat) :
    ∀ k s, ((List.range' s k).filter fun j => j == b).length
      = if s ≤ b ∧ b < s + k then 1 else 0 := by
  intro k
  induction k with
  | zero =>
    intro s
    have h : ¬ (s ≤ b ∧ b < s) := by omega
    simp [h]
  | succ k ih =>
    intro s
    rw [List.range'_succ, List.filter_cons]
    by_cases hb : s = b
    · subst hb
      have h0 : ((List.range' (s + 1) k).filter fun j => j == s).length = 0 := by
        rw [ih (s + 1)]
        have hc : ¬ (s + 1 ≤ s ∧ s < s + 1 + k) := by omega
        simp [hc]
      have hcond : s ≤ s ∧ s < s + (k + 1) := by omega
      simp [h0, hcond]
    · have hsb : (s == b) = false := by simp [hb]
      rw [hsb]
      simp only [Bool.false_eq_true, if_false]
      rw [ih (s + 1)]
      have hiff : (s + 1 ≤ b ∧ b < s + 1 + k) ↔ (s ≤ b ∧ b < s + (k + 1)) := by omega
      simp only [hiff]

theorem writeAt_full (b m : Buf) (h : b.length = m.length) : writeAt b 0 m = m := by
  simp [writeAt, h, List.drop_length]

theorem ringProg_zero (size n : Nat) :
    ringProg size n 0 = nodeOps none false [(0, 1)] [(0, n)] := by
  simp [ringProg, nodeOps]

theorem ringProg_pos (size n r : Nat) (h1 : 1 ≤ r) :
    ringProg size n r
      = nodeOps (some (r - 1)) false (if r = size - 1 then [] else [(0, r + 1)]) [(0, n)]
        ++ [] := by
  have hne : r ≠ 0 := by omega
  by_cases hr : r = size - 1
  · have hs : ¬ (size - 1 = 0) := by omega
    simp [ringProg, nodeOps, hne, hr, hs]
  · simp [ringProg, nodeOps, hne, hr]

theorem pipelinedRingProg_zero (size n cs : Nat) :
    pipelinedRingProg size n cs 0 = nodeOps none false [(0, 1)] (chunkPlan n cs) := by
  have h0 : pipelinedRingProg size n cs 0
      = (chunkPlan n cs).map fun p => Op.send (0 + 1) p.1 p.2 := by
    simp [pipelinedRingProg]
  rw [h0, ← flatMap_map_singleton (chunkPlan n cs) fun p => Op.send (0 + 1) p.1 p.2]
  simp only [nodeOps]
  apply flatMap_congrFun
  intro p
  simp

theorem pipelinedRingProg_pos (size n cs r : Nat) (h1 : 1 ≤ r) :
    pipelinedRingProg size n cs r
      = nodeOps (some (r - 1)) false (if r = size - 1 then [] else [(0, r + 1)])
          (chunkPlan n cs) ++ [] := by
  have hne : r ≠ 0 := by omega
  simp only [pipelinedRingProg, if_neg hne, nodeOps, List.append_nil]
  apply flatMap_congrFun
  intro p
  by_cases hr : r = size - 1 <;> simp [hr]

theorem asyncPipelinedRingProg_zero (size n cs : Nat) :
    asyncPipelinedRingProg size n cs 0 = nodeOps none true [(0, 1)] (chunkPlan n cs) := by
  have h0 : asyncPipelinedRingProg size n cs 0
      = (chunkPlan n cs).map fun p => Op.isend 0 (0 + 1) p.1 p.2 := by
    simp [asyncPipelinedRingProg]
  rw [h0, ← flatMap_map_singleton (chunkPlan n cs) fun p => Op.isend 0 (0 + 1) p.1 p.2]
  simp only [nodeOps]
  apply flatMap_congrFun
  intro p
  simp

theorem asyncPipelinedRingProg_pos (size n cs r : Nat) (h1 : 1 ≤ r) :
    asyncPipelinedRingProg size n cs r
      = nodeOps (some (r - 1)) true (if r = size - 1 then [] else [(0, r + 1)])
          (chunkPlan n cs) ++ [Op.wait 0] := by
  have hne : r ≠ 0 := by omega
  simp only [asyncPipelinedRingProg, if_neg hne, nodeOps]
  congr 1
  apply flatMap_congrFun
  intro p
  by_cases hr : r = size - 1 <;> simp [hr]

theorem bintreeProg_eq (size n cs r : Nat) (h1 : 1 ≤ r) :
    bintreeProg size n cs r
      = nodeOps (some ((r - 1) / 2)) true
          ((if r * 2 + 1 < size then [(0, r * 2 + 1)] else [])
            ++ (if r * 2 + 2 < size then [(1, r * 2 + 2)] else []))
          (chunkPlan n cs) ++ [Op.waitAll] := by
  have hne : r ≠ 0 := by omega
  simp only [bintreeProg, nodeOps]
  congr 1
  apply flatMap_congrFun
  intro p
  by_cases hL : r * 2 + 1 < size <;> by_cases hR : r * 2 + 2 < size <;>
    simp [hne, hL, hR]

theorem bintreeProg_root (size n cs : Nat) :
    bintreeProg size n cs 0
      = nodeOps none true
          ((if 1 < size then [(0, 1)] else []) ++ (if 2 < size then [(1, 2)] else []))
          (chunkPlan n cs) ++ [Op.waitAll] := by
  simp only [bintreeProg, nodeOps]
  congr 1
  apply flatMap_congrFun
  intro p
  have e1 : (0 * 2 + 1 : Nat) = 1 := rfl
  have e2 : (0 * 2 + 2 : Nat) = 2 := rfl
  rw [e1, e2]
  by_cases hL : 1 < size <;> by_cases hR : 2 < size <;> simp [hL, hR]

theorem naiveProg_zero (size n : Nat) :
    naiveProg size n 0
      = (((List.range' 1 (size - 1)).map fun j => (0, j)).map
          fun sd : Nat × Nat => if false then Op.isend sd.1 sd.2 0 n else Op.send sd.2 0 n) := by
  simp [naiveProg, List.map_map, Function.comp]

theorem runRanksAux_ringLike (size n : Nat) (useI : Bool) (plan : List (Nat × Nat))
    (prog : Nat → List Op) (tailOps : Nat → List Op) (rootBuf : Buf)
    (hplan : contiguousFrom 0 plan) (hsum : lensSum plan = n) (hroot : rootBuf.length = n)
    (hprogr : ∀ r, 1 ≤ r → r < size →
      prog r = nodeOps (some (r - 1)) useI (if r = size - 1 then [] else [(0, r + 1)]) plan
        ++ tailOps r)
    (htail : ∀ r op, op ∈ tailOps r → isNoop op = true) :
    ∀ k r bufs chs, r + k = size → 1 ≤ r →
      bufs.length = size →
      (∀ i, i < size → (bufs.getD i []).length = n) →
      (∀ i, i < r → bufs.getD i [] = rootBuf) →
      (∀ a b, chs a b
        = if a = r - 1 ∧ b = r ∧ r < size then planSlices rootBuf plan else []) →
      ∃ bufs' chs',
        runRanksAux size prog (List.range' r k) (bufs, chs) = some (bufs', chs') ∧
        bufs'.length = size ∧ ∀ i, i < size → bufs'.getD i [] = rootBuf := by
  intro k
  induction k with
  | zero =>
    intro r bufs chs hrk h1 hbl hbn hbr hch
    exact ⟨bufs, chs, rfl, hbl, fun i hi => hbr i (by omega)⟩
  | succ k ihk =>
    intro r bufs chs hrk h1 hbl hbn hbr hch
    have hrs : r < size := by omega
    have hbuflen : (bufs.getD r []).length = rootBuf.length := by
      rw [hroot]
      exact hbn r hrs
    have hdst : ∀ sd ∈ (if r = size - 1 then ([] : List (Nat × Nat)) else [(0, r + 1)]),
        sd.2 < size := by
      intro sd hsd
      by_cases hr1 : r = size - 1
      · rw [if_pos hr1] at hsd
        exact absurd hsd (List.not_mem_nil sd)
      · rw [if_neg hr1] at hsd
        have hsd' : sd = (0, r + 1) := List.mem_singleton.mp hsd
        rw [hsd']
        show r + 1 < size
        omega
    have hsrc : ∀ s, some (r - 1) = some s →
        s ≠ r ∧ chs s r = planSlices rootBuf plan := by
      intro s hs
      have hss : r - 1 = s := by injection hs
      subst hss
      refine ⟨by omega, ?_⟩
      rw [hch (r - 1) r, if_pos ⟨rfl, rfl, hrs⟩]
    obtain ⟨chs', hrun, hchf⟩ := runOps_nodeOps size r (some (r - 1)) useI
      (if r = size - 1 then [] else [(0, r + 1)]) rootBuf plan 0 (bufs.getD r []) chs
      hplan (by omega) hbuflen hsrc (fun h => nomatch h) rfl hdst
    have hprogrun : runOps size r (prog r) (bufs.getD r [], chs) = some (rootBuf, chs') := by
      rw [hprogr r h1 hrs, runOps_append, hrun]
      exact runOps_noops size r (tailOps r) (rootBuf, chs') (htail r)
    have hch' : ∀ a b, chs' a b
        = if a = (r + 1) - 1 ∧ b = r + 1 ∧ r + 1 < size then planSlices rootBuf plan
          else [] := by
      intro a b
      rw [hchf a b]
      by_cases ha : a = r
      · have hne1 : ¬ (some (r - 1) = some a ∧ b = r) := by
          intro hx
          have hx1 : r - 1 = a := by injection hx.1
          omega
        rw [if_neg hne1]
        have hch0 : chs a b = [] := by
          rw [hch a b]
          have hcnd : ¬ (a = r - 1 ∧ b = r ∧ r < size) := by
            intro hx
            omega
          rw [if_neg hcnd]
        rw [hch0, if_pos ha]
        by_cases hr1 : r = size - 1
        · rw [if_pos hr1]
          have hc0 : countDst ([] : List (Nat × Nat)) b = 0 := rfl
          rw [hc0, flatMap_replicate_zero]
          have hcnd : ¬ (a = (r + 1) - 1 ∧ b = r + 1 ∧ r + 1 < size) := by
            intro hx
            omega
          rw [if_neg hcnd]
          simp
        · rw [if_neg hr1]
          by_cases hb : b = r + 1
          · have hcd : countDst [(0, r + 1)] b = 1 := by
              simp [countDst, hb]
            rw [hcd, flatMap_replicate_one,
              if_pos (⟨by omega, hb, by omega⟩ :
                a = (r + 1) - 1 ∧ b = r + 1 ∧ r + 1 < size)]
            simp
          · have h1b : ((r + 1 : Nat) == b) = false := by
              simp
              omega
            have hcd : countDst [(0, r + 1)] b = 0 := by
              simp [countDst, List.filter_cons, h1b]
            rw [hcd, flatMap_replicate_zero]
            have hcnd : ¬ (a = (r + 1) - 1 ∧ b = r + 1 ∧ r + 1 < size) := fun hx => hb hx.2.1
            rw [if_neg hcnd]
            simp
      · rw [if_neg ha]
        by_cases hc : some (r - 1) = some a ∧ b = r
        · rw [if_pos hc]
          have hcnd : ¬ (a = (r + 1) - 1 ∧ b = r + 1 ∧ r + 1 < size) := by
            intro hx
            omega
          rw [if_neg hcnd]
          simp
        · rw [if_neg hc]
          have hch0 : chs a b = [] := by
            rw [hch a b]
            have hcnd : ¬ (a = r - 1 ∧ b = r ∧ r < size) := by
              intro hx
              exact hc ⟨by rw [hx.1], hx.2.1⟩
            rw [if_neg hcnd]
          rw [hch0]
          have hcnd : ¬ (a = (r + 1) - 1 ∧ b = r + 1 ∧ r + 1 < size) := by
            intro hx
            omega
          rw [if_neg hcnd]
          simp
    obtain ⟨bufs', chs'', hrun', hlen', hall⟩ := ihk (r + 1) (bufs.set r rootBuf) chs'
      (by omega) (by omega)
      (by rw [List.length_set]; exact hbl)
      (by intro i hi
          by_cases hir : i = r
          · rw [hir, getD_set_self bufs r rootBuf [] (by omega), hroot]
          · rw [getD_set_ne bufs r i rootBuf [] (fun h => hir h.symm)]
            exact hbn i hi)
      (by intro i hi
          by_cases hir : i = r
          · rw [hir, getD_set_self bufs r rootBuf [] (by omega)]
          · rw [getD_set_ne bufs r i rootBuf [] (fun h => hir h.symm)]
            exact hbr i (by omega))
      hch'
    refine ⟨bufs', chs'', ?_, hlen', hall⟩
    rw [List.range'_succ]
    simp only [runRanksAux, hprogrun]
    exact hrun'

theorem runRanks_ringLike (size n : Nat) (useI : Bool) (plan : List (Nat × Nat))
    (prog : Nat → List Op) (tailOps : Nat → List Op) (rootBuf : Buf) (bufs : List Buf)
    (h2 : 2 ≤ size)
    (hplan : contiguousFrom 0 plan) (hsum : lensSum plan = n) (hroot : rootBuf.length = n)
    (hprog0 : prog 0 = nodeOps none useI [(0, 1)] plan)
    (hprogr : ∀ r, 1 ≤ r → r < size →
      prog r = nodeOps (some (r - 1)) useI (if r = size - 1 then [] else [(0, r + 1)]) plan
        ++ tailOps r)
    (htail : ∀ r op, op ∈ tailOps r → isNoop op = true)
    (hbl : bufs.length = size)
    (hbn : ∀ i, i < size → (bufs.getD i []).length = n)
    (hb0 : bufs.getD 0 [] = rootBuf) :
    ∃ final, runRanks size prog bufs = some final ∧ final.length = size ∧
      ∀ i, i < size → final.getD i [] = rootBuf := by
  obtain ⟨chs₁, hrun0, hch0⟩ := runOps_nodeOps size 0 none useI [(0, 1)] rootBuf plan 0
    (bufs.getD 0 []) (fun _ _ => []) hplan (by omega) (by rw [hb0])
    (fun s h => nomatch h) (fun _ => hb0) rfl
    (by intro sd hsd
        have hsd' : sd = (0, 1) := List.mem_singleton.mp hsd
        rw [hsd']
        show 1 < size
        omega)
  have hch1 : ∀ a b, chs₁ a b
      = if a = 1 - 1 ∧ b = 1 ∧ 1 < size then planSlices rootBuf plan else [] := by
    intro a b
    rw [hch0 a b]
    have hf : ¬ ((none : Option Nat) = some a ∧ b = 0) := fun hx => nomatch hx.1
    rw [if_neg hf]
    by_cases ha : a = 0
    · rw [if_pos ha]
      by_cases hb : b = 1
      · have hcd : countDst [(0, 1)] b = 1 := by
          simp [countDst, hb]
        rw [hcd, flatMap_replicate_one,
          if_pos (⟨by omega, hb, by omega⟩ : a = 1 - 1 ∧ b = 1 ∧ 1 < size)]
        simp
      · have h1b : ((1 : Nat) == b) = false := by
          simp
          omega
        have hcd : countDst [(0, 1)] b = 0 := by
          simp [countDst, List.filter_cons, h1b]
        rw [hcd, flatMap_replicate_zero]
        have hcnd : ¬ (a = 1 - 1 ∧ b = 1 ∧ 1 < size) := fun hx => hb hx.2.1
        rw [if_neg hcnd]
        simp
    · rw [if_neg ha]
      have hcnd : ¬ (a = 1 - 1 ∧ b = 1 ∧ 1 < size) := by
        intro hx
        omega
      rw [if_neg hcnd]
      simp
  obtain ⟨bufs', chs'', hrun', hlen', hall⟩ := runRanksAux_ringLike size n useI plan prog
    tailOps rootBuf hplan hsum hroot hprogr htail (size - 1) 1 (bufs.set 0 rootBuf) chs₁
    (by omega) (by omega)
    (by rw [List.length_set]; exact hbl)
    (by intro i hi
        by_cases hir : i = 0
        · rw [hir, getD_set_self bufs 0 rootBuf [] (by omega), hroot]
        · rw [getD_set_ne bufs 0 i rootBuf [] (fun h => hir h.symm)]
          exact hbn i hi)
    (by intro i hi
        have hir : i = 0 := by omega
        rw [hir, getD_set_self bufs 0 rootBuf [] (by omega)])
    hch1
  refine ⟨bufs', ?_, hlen', hall⟩
  have hrange : List.range size = 0 :: List.range' 1 (size - 1) := by
    rw [List.range_eq_range']
    obtain ⟨m, hm⟩ : ∃ m, size = m + 1 := ⟨size - 1, by omega⟩
    rw [hm, List.range'_succ]
    have hm1 : m + 1 - 1 = m := by omega
    rw [hm1]
  have hstep0 : runOps size 0 (prog 0) (bufs.getD 0 [], fun _ _ => [])
      = some (rootBuf, chs₁) := by
    rw [hprog0]
    exact hrun0
  simp only [runRanks, hrange, runRanksAux, hstep0, hrun']

theorem runRanksAux_naive (size n : Nat) (rootBuf : Buf) (hroot : rootBuf.length = n) :
    ∀ k r bufs chs, r + k = size → 1 ≤ r →
      bufs.length = size →
      (∀ i, i < size → (bufs.getD i []).length = n) →
      (∀ i, i < r → bufs.getD i [] = rootBuf) →
      (∀ a b, chs a b = if a = 0 ∧ r ≤ b ∧ b < size then [rootBuf] else []) →
      ∃ bufs' chs',
        runRanksAux size (naiveProg size n) (List.range' r k) (bufs, chs)
          = some (bufs', chs') ∧
        bufs'.length = size ∧ ∀ i, i < size → bufs'.getD i [] = rootBuf := by
  intro k
  induction k with
  | zero =>
    intro r bufs chs hrk h1 hbl hbn hbr hch
    exact ⟨bufs, chs, rfl, hbl, fun i hi => hbr i (by omega)⟩
  | succ k ihk =>
    intro r bufs chs hrk h1 hbl hbn hbr hch
    have hrs : r < size := by omega
    have hne : r ≠ 0 := by omega
    have hprog : naiveProg size n r = [Op.recv 0 0 n] := by
      simp [naiveProg, hne]
    have hchr : chs 0 r = [rootBuf] := by
      rw [hch 0 r, if_pos ⟨rfl, by omega, hrs⟩]
    have hrecv : runOp size r (bufs.getD r [], chs) (Op.recv 0 0 n)
        = some (writeAt (bufs.getD r []) 0 rootBuf,
            fun a b => if a = 0 ∧ b = r then [] else chs a b) := by
      have hred : runOp size r (bufs.getD r [], chs) (Op.recv 0 0 n)
          = match chs 0 r with
            | [] => none
            | m :: ms =>
              if m.length = n then
                some (writeAt (bufs.getD r []) 0 m,
                  fun a b => if a = 0 ∧ b = r then ms else chs a b)
              else none := rfl
      rw [hred, hchr]
      simp [hroot]
    have hwr : writeAt (bufs.getD r []) 0 rootBuf = rootBuf :=
      writeAt_full _ _ (by rw [hroot]; exact hbn r hrs)
    have hrunops : runOps size r (naiveProg size n r) (bufs.getD r [], chs)
        = some (rootBuf, fun a b => if a = 0 ∧ b = r then [] else chs a b) := by
      rw [hprog]
      simp only [runOps, hrecv, hwr]
    have hch' : ∀ a b, (if a = 0 ∧ b = r then [] else chs a b)
        = if a = 0 ∧ r + 1 ≤ b ∧ b < size then [rootBuf] else [] := by
      intro a b
      by_cases hc : a = 0 ∧ b = r
      · rw [if_pos hc]
        have hcnd : ¬ (a = 0 ∧ r + 1 ≤ b ∧ b < size) := by
          intro hx
          omega
        rw [if_neg hcnd]
      · rw [if_neg hc, hch a b]
        by_cases hc2 : a = 0 ∧ r + 1 ≤ b ∧ b < size
        · rw [if_pos ⟨hc2.1, by omega, hc2.2.2⟩, if_pos hc2]
        · have hcnd : ¬ (a = 0 ∧ r ≤ b ∧ b < size) := by
            intro hx
            apply hc2
            refine ⟨hx.1, ?_, hx.2.2⟩
            have hbr' : b ≠ r := fun h => hc ⟨hx.1, h⟩
            omega
          rw [if_neg hcnd, if_neg hc2]
    obtain ⟨bufs', chs'', hrun', hlen', hall⟩ := ihk (r + 1) (bufs.set r rootBuf)
      (fun a b => if a = 0 ∧ b = r then [] else chs a b) (by omega) (by omega)
      (by rw [List.length_set]; exact hbl)
      (by intro i hi
          by_cases hir : i = r
          · rw [hir, getD_set_self bufs r rootBuf [] (by omega), hroot]
          · rw [getD_set_ne bufs r i rootBuf [] (fun h => hir h.symm)]
            exact hbn i hi)
      (by intro i hi
          by_cases hir : i = r
          · rw [hir, getD_set_self bufs r rootBuf [] (by omega)]
          · rw [getD_set_ne bufs r i rootBuf [] (fun h => hir h.symm)]
            exact hbr i (by omega))
      (fun a b => hch' a b)
    refine ⟨bufs', chs'', ?_, hlen', hall⟩
    rw [List.range'_succ]
    simp only [runRanksAux, hrunops]
    exact hrun'

theorem runRanks_naive (size n : Nat) (rootBuf : Buf) (bufs : List Buf)
    (h1 : 1 ≤ size) (hroot : rootBuf.length = n)
    (hbl : bufs.length = size)
    (hbn : ∀ i, i < size → (bufs.getD i []).length = n)
    (hb0 : bufs.getD 0 [] = rootBuf) :
    ∃ final, runRanks size (naiveProg size n) bufs = some final ∧ final.length = size ∧
      ∀ i, i < size → final.getD i [] = rootBuf := by
  obtain ⟨chs₁, hsend, hch⟩ := runOps_sends size 0 0 n false
    ((List.range' 1 (size - 1)).map fun j => (0, j)) (bufs.getD 0 []) (fun _ _ => [])
    (by intro sd hsd
        simp only [List.mem_map] at hsd
        obtain ⟨j, hj, rfl⟩ := hsd
        have hjm := List.mem_range'_1.mp hj
        show j < size
        omega)
  have hslice : slice (bufs.getD 0 []) 0 n = rootBuf := by
    rw [hb0, ← hroot]
    exact slice_all rootBuf
  have hcd : ∀ b, countDst ((List.range' 1 (size - 1)).map fun j => (0, j)) b
      = if 1 ≤ b ∧ b < size then 1 else 0 := by
    intro b
    have h1' : (1 : Nat) + (size - 1) = size := by omega
    have hfm := List.filter_map (fun j : Nat => ((0 : Nat), j))
      (List.range' 1 (size - 1)) (p := fun sd : Nat × Nat => sd.2 == b)
    rw [countDst, hfm, List.length_map]
    have hfb := filter_beq_range' b (size - 1) 1
    rw [h1'] at hfb
    have hcomp : ((fun sd : Nat × Nat => sd.2 == b) ∘ fun j : Nat => ((0 : Nat), j))
        = fun j : Nat => j == b := rfl
    rw [hcomp, hfb]
  have hch1 : ∀ a b, chs₁ a b = if a = 0 ∧ 1 ≤ b ∧ b < size then [rootBuf] else [] := by
    intro a b
    rw [hch a b, hcd b, hslice]
    by_cases ha : a = 0
    · rw [if_pos ha]
      by_cases hb : 1 ≤ b ∧ b < size
      · rw [if_pos hb, if_pos ⟨ha, hb.1, hb.2⟩]
        simp [List.replicate]
      · rw [if_neg hb, if_neg (fun hx => hb ⟨hx.2.1, hx.2.2⟩)]
        simp [List.replicate]
    · rw [if_neg ha, if_neg (fun hx => ha hx.1)]
      simp
  have hrun0 : runOps size 0 (naiveProg size n 0) (bufs.getD 0 [], fun _ _ => [])
      = some (bufs.getD 0 [], chs₁) := by
    rw [naiveProg_zero]
    exact hsend
  obtain ⟨bufs', chs'', hrun', hlen', hall⟩ := runRanksAux_naive size n rootBuf hroot
    (size - 1) 1 (bufs.set 0 (bufs.getD 0 [])) chs₁ (by omega) (by omega)
    (by rw [List.length_set]; exact hbl)
    (by intro i hi
        by_cases hir : i = 0
        · rw [hir, getD_set_self bufs 0 (bufs.getD 0 []) [] (by omega)]
          exact hbn 0 (by omega)
        · rw [getD_set_ne bufs 0 i (bufs.getD 0 []) [] (fun h => hir h.symm)]
          exact hbn i hi)
    (by intro i hi
        have hir : i = 0 := by omega
        rw [hir, getD_set_self bufs 0 (bufs.getD 0 []) [] (by omega), hb0])
    hch1
  refine ⟨bufs', ?_, hlen', hall⟩
  have hrange : List.range size = 0 :: List.range' 1 (size - 1) := by
    rw [List.range_eq_range']
    obtain ⟨m, hm⟩ : ∃ m, size = m + 1 := ⟨size - 1, by omega⟩
    rw [hm, List.range'_succ]
    have hm1 : m + 1 - 1 = m := by omega
    rw [hm1]
  simp only [runRanks, hrange, runRanksAux, hrun0, hrun']

theorem countDst_append (d₁ d₂ : List (Nat × Nat)) (b : Nat) :
    countDst (d₁ ++ d₂) b = countDst d₁ b + countDst d₂ b := by
  simp [countDst, List.filter_append]

theorem countDst_single (s d b : Nat) :
    countDst [(s, d)] b = if d = b then 1 else 0 := by
  by_cases h : d = b <;> simp [countDst, List.filter_cons, h]

theorem countDst_nil (b : Nat) : countDst [] b = 0 := rfl

theorem runRanksAux_bintree (size n : Nat) (plan : List (Nat × Nat)) (rootBuf : Buf)
    (prog : Nat → List Op)
    (hplan : contiguousFrom 0 plan) (hsum : lensSum plan = n) (hroot : rootBuf.length = n)
    (hprogr : ∀ r, 1 ≤ r → r < size →
      prog r = nodeOps (some ((r - 1) / 2)) true
        ((if r * 2 + 1 < size then [(0, r * 2 + 1)] else [])
          ++ (if r * 2 + 2 < size then [(1, r * 2 + 2)] else [])) plan
        ++ [Op.waitAll]) :
    ∀ k r bufs chs, r + k = size → 1 ≤ r →
      bufs.length = size →
      (∀ i, i < size → (bufs.getD i []).length = n) →
      (∀ i, i < r → bufs.getD i [] = rootBuf) →
      (∀ a b, chs a b
        = if 1 ≤ b ∧ b < size ∧ a = (b - 1) / 2 ∧ a < r ∧ r ≤ b
          then planSlices rootBuf plan else []) →
      ∃ bufs' chs',
        runRanksAux size prog (List.range' r k) (bufs, chs) = some (bufs', chs') ∧
        bufs'.length = size ∧ ∀ i, i < size → bufs'.getD i [] = rootBuf := by
  intro k
  induction k with
  | zero =>
    intro r bufs chs hrk h1 hbl hbn hbr hch
    exact ⟨bufs, chs, rfl, hbl, fun i hi => hbr i (by omega)⟩
  | succ k ihk =>
    intro r bufs chs hrk h1 hbl hbn hbr hch
    have hrs : r < size := by omega
    have hpar : (r - 1) / 2 < r := by omega
    have hdst : ∀ sd ∈ (if r * 2 + 1 < size then [((0 : Nat), r * 2 + 1)] else [])
        ++ (if r * 2 + 2 < size then [((1 : Nat), r * 2 + 2)] else []), sd.2 < size := by
      intro sd hsd
      rcases List.mem_append.mp hsd with h | h
      · by_cases hL : r * 2 + 1 < size
        · rw [if_pos hL] at h
          rw [List.mem_singleton.mp h]
          exact hL
        · rw [if_neg hL] at h
          exact absurd h (List.not_mem_nil sd)
      · by_cases hR : r * 2 + 2 < size
        · rw [if_pos hR] at h
          rw [List.mem_singleton.mp h]
          exact hR
        · rw [if_neg hR] at h
          exact absurd h (List.not_mem_nil sd)
    have hsrc : ∀ s, some ((r - 1) / 2) = some s →
        s ≠ r ∧ chs s r = planSlices rootBuf plan := by
      intro s hs
      have hss : (r - 1) / 2 = s := by injection hs
      subst hss
      refine ⟨by omega, ?_⟩
      rw [hch ((r - 1) / 2) r, if_pos ⟨h1, hrs, rfl, hpar, le_refl r⟩]
    obtain ⟨chs', hrun, hchf⟩ := runOps_nodeOps size r (some ((r - 1) / 2)) true
      ((if r * 2 + 1 < size then [((0 : Nat), r * 2 + 1)] else [])
        ++ (if r * 2 + 2 < size then [((1 : Nat), r * 2 + 2)] else []))
      rootBuf plan 0 (bufs.getD r []) chs hplan (by omega)
      (by rw [hroot]; exact hbn r hrs) hsrc (fun h => nomatch h) rfl hdst
    have hprogrun : runOps size r (prog r) (bufs.getD r [], chs) = some (rootBuf, chs') := by
      rw [hprogr r h1 hrs, runOps_append, hrun]
      exact runOps_noops size r [Op.waitAll] (rootBuf, chs')
        (by intro op hop
            rw [List.mem_singleton.mp hop]
            rfl)
    have hcd : ∀ b, countDst
        ((if r * 2 + 1 < size then [((0 : Nat), r * 2 + 1)] else [])
          ++ (if r * 2 + 2 < size then [((1 : Nat), r * 2 + 2)] else [])) b
        = (if r * 2 + 1 < size then if r * 2 + 1 = b then 1 else 0 else 0)
          + (if r * 2 + 2 < size then if r * 2 + 2 = b then 1 else 0 else 0) := by
      intro b
      rw [countDst_append]
      congr 1
      · by_cases hL : r * 2 + 1 < size
        · rw [if_pos hL, if_pos hL, countDst_single]
        · rw [if_neg hL, if_neg hL, countDst_nil]
      · by_cases hR : r * 2 + 2 < size
        · rw [if_pos hR, if_pos hR, countDst_single]
        · rw [if_neg hR, if_neg hR, countDst_nil]
    have hch' : ∀ a b, chs' a b
        = if 1 ≤ b ∧ b < size ∧ a = (b - 1) / 2 ∧ a < r + 1 ∧ r + 1 ≤ b
          then planSlices rootBuf plan else [] := by
      intro a b
      rw [hchf a b]
      by_cases ha : a = r
      · have hne1 : ¬ (some ((r - 1) / 2) = some a ∧ b = r) := by
          intro hx
          have hx1 : (r - 1) / 2 = a := by injection hx.1
          omega
        rw [if_neg hne1]
        have hch0 : chs a b = [] := by
          rw [hch a b]
          have hcnd : ¬ (1 ≤ b ∧ b < size ∧ a = (b - 1) / 2 ∧ a < r ∧ r ≤ b) := by
            intro hx
            omega
          rw [if_neg hcnd]
        rw [hch0, if_pos ha, hcd b]
        by_cases hchild : (b = r * 2 + 1 ∨ b = r * 2 + 2) ∧ b < size
        · have hcnt : (if r * 2 + 1 < size then if r * 2 + 1 = b then 1 else 0 else 0)
              + (if r * 2 + 2 < size then if r * 2 + 2 = b then 1 else 0 else 0) = 1 := by
            split_ifs <;> omega
          rw [hcnt, flatMap_replicate_one]
          have hcnd : 1 ≤ b ∧ b < size ∧ a = (b - 1) / 2 ∧ a < r + 1 ∧ r + 1 ≤ b := by
            omega
          rw [if_pos hcnd]
          simp
        · have hcnt : (if r * 2 + 1 < size then if r * 2 + 1 = b then 1 else 0 else 0)
              + (if r * 2 + 2 < size then if r * 2 + 2 = b then 1 else 0 else 0) = 0 := by
            split_ifs <;> omega
          rw [hcnt, flatMap_replicate_zero]
          have hcnd : ¬ (1 ≤ b ∧ b < size ∧ a = (b - 1) / 2 ∧ a < r + 1 ∧ r + 1 ≤ b) := by
            intro hx
            apply hchild
            constructor
            · omega
            · exact hx.2.1
          rw [if_neg hcnd]
          simp
      · rw [if_neg ha]
        by_cases hc : some ((r - 1) / 2) = some a ∧ b = r
        · rw [if_pos hc]
          have hcnd : ¬ (1 ≤ b ∧ b < size ∧ a = (b - 1) / 2 ∧ a < r + 1 ∧ r + 1 ≤ b) := by
            intro hx
            omega
          rw [if_neg hcnd]
          simp
        · rw [if_neg hc, hch a b]
          have hiff : (1 ≤ b ∧ b < size ∧ a = (b - 1) / 2 ∧ a < r ∧ r ≤ b)
              ↔ (1 ≤ b ∧ b < size ∧ a = (b - 1) / 2 ∧ a < r + 1 ∧ r + 1 ≤ b) := by
            constructor
            · intro hx
              refine ⟨hx.1, hx.2.1, hx.2.2.1, by omega, ?_⟩
              have hbr' : b ≠ r := by
                intro hb
                exact hc ⟨by rw [hx.2.2.1, hb], hb⟩
              omega
            · intro hx
              refine ⟨hx.1, hx.2.1, hx.2.2.1, by omega, by omega⟩
          rw [if_congr hiff rfl rfl]
          simp
    obtain ⟨bufs', chs'', hrun', hlen', hall⟩ := ihk (r + 1) (bufs.set r rootBuf) chs'
      (by omega) (by omega)
      (by rw [List.length_set]; exact hbl)
      (by intro i hi
          by_cases hir : i = r
          · rw [hir, getD_set_self bufs r rootBuf [] (by omega), hroot]
          · rw [getD_set_ne bufs r i rootBuf [] (fun h => hir h.symm)]
            exact hbn i hi)
      (by intro i hi
          by_cases hir : i = r
          · rw [hir, getD_set_self bufs r rootBuf [] (by omega)]
          · rw [getD_set_ne bufs r i rootBuf [] (fun h => hir h.symm)]
            exact hbr i (by omega))
      hch'
    refine ⟨bufs', chs'', ?_, hlen', hall⟩
    rw [List.range'_succ]
    simp only [runRanksAux, hprogrun]
    exact hrun'

theorem runRanks_bintree (size n cs : Nat) (rootBuf : Buf) (bufs : List Buf)
    (h1 : 1 ≤ size) (hcs : 1 ≤ cs) (hroot : rootBuf.length = n)
    (hbl : bufs.length = size)
    (hbn : ∀ i, i < size → (bufs.getD i []).length = n)
    (hb0 : bufs.getD 0 [] = rootBuf) :
    ∃ final, runRanks size (bintreeProg size n cs) bufs = some final ∧
      final.length = size ∧ ∀ i, i < size → final.getD i [] = rootBuf := by
  obtain ⟨hplan, hsum⟩ := chunkPlan_spec n cs hcs
  obtain ⟨chs₁, hrun0, hch0⟩ := runOps_nodeOps size 0 none true
    ((if 1 < size then [((0 : Nat), (1 : Nat))] else [])
      ++ (if 2 < size then [((1 : Nat), (2 : Nat))] else []))
    rootBuf (chunkPlan n cs) 0 (bufs.getD 0 []) (fun _ _ => []) hplan (by omega)
    (by rw [hb0]) (fun s h => nomatch h) (fun _ => hb0) rfl
    (by intro sd hsd
        rcases List.mem_append.mp hsd with h | h
        · by_cases hL : 1 < size
          · rw [if_pos hL] at h
            rw [List.mem_singleton.mp h]
            exact hL
          · rw [if_neg hL] at h
            exact absurd h (List.not_mem_nil sd)
        · by_cases hR : 2 < size
          · rw [if_pos hR] at h
            rw [List.mem_singleton.mp h]
            exact hR
          · rw [if_neg hR] at h
            exact absurd h (List.not_mem_nil sd))
  have hrun0' : runOps size 0 (bintreeProg size n cs 0) (bufs.getD 0 [], fun _ _ => [])
      = some (rootBuf, chs₁) := by
    rw [bintreeProg_root, runOps_append, hrun0]
    exact runOps_noops size 0 [Op.waitAll] (rootBuf, chs₁)
      (by intro op hop
          rw [List.mem_singleton.mp hop]
          rfl)
  have hcd0 : ∀ b, countDst
      ((if 1 < size then [((0 : Nat), (1 : Nat))] else [])
        ++ (if 2 < size then [((1 : Nat), (2 : Nat))] else [])) b
      = (if 1 < size then if 1 = b then 1 else 0 else 0)
        + (if 2 < size then if 2 = b then 1 else 0 else 0) := by
    intro b
    rw [countDst_append]
    congr 1
    · by_cases hL : 1 < size
      · rw [if_pos hL, if_pos hL, countDst_single]
      · rw [if_neg hL, if_neg hL, countDst_nil]
    · by_cases hR : 2 < size
      · rw [if_pos hR, if_pos hR, countDst_single]
      · rw [if_neg hR, if_neg hR, countDst_nil]
  have hch1 : ∀ a b, chs₁ a b
      = if 1 ≤ b ∧ b < size ∧ a = (b - 1) / 2 ∧ a < 1 ∧ 1 ≤ b
        then planSlices rootBuf (chunkPlan n cs) else [] := by
    intro a b
    rw [hch0 a b]
    have hf : ¬ ((none : Option Nat) = some a ∧ b = 0) := fun hx => nomatch hx.1
    rw [if_neg hf]
    by_cases ha : a = 0
    · rw [if_pos ha, hcd0 b]
      by_cases hchild : (b = 1 ∨ b = 2) ∧ b < size
      · have hcnt : (if 1 < size then if 1 = b then 1 else 0 else 0)
            + (if 2 < size then if 2 = b then 1 else 0 else 0) = 1 := by
          split_ifs <;> omega
        rw [hcnt, flatMap_replicate_one]
        have hcnd : 1 ≤ b ∧ b < size ∧ a = (b - 1) / 2 ∧ a < 1 ∧ 1 ≤ b := by
          omega
        rw [if_pos hcnd]
        simp
      · have hcnt : (if 1 < size then if 1 = b then 1 else 0 else 0)
            + (if 2 < size then if 2 = b then 1 else 0 else 0) = 0 := by
          split_ifs <;> omega
        rw [hcnt, flatMap_replicate_zero]
        have hcnd : ¬ (1 ≤ b ∧ b < size ∧ a = (b - 1) / 2 ∧ a < 1 ∧ 1 ≤ b) := by
          intro hx
          apply hchild
          constructor
          · omega
          · exact hx.2.1
        rw [if_neg hcnd]
        simp
    · rw [if_neg ha]
      have hcnd : ¬ (1 ≤ b ∧ b < size ∧ a = (b - 1) / 2 ∧ a < 1 ∧ 1 ≤ b) := by
        intro hx
        omega
      rw [if_neg hcnd]
      simp
  obtain ⟨bufs', chs'', hrun', hlen', hall⟩ := runRanksAux_bintree size n (chunkPlan n cs)
    rootBuf (bintreeProg size n cs) hplan hsum hroot
    (fun r h1r hrs => bintreeProg_eq size n cs r h1r)
    (size - 1) 1 (bufs.set 0 rootBuf) chs₁ (by omega) (by omega)
    (by rw [List.length_set]; exact hbl)
    (by intro i hi
        by_cases hir : i = 0
        · rw [hir, getD_set_self bufs 0 rootBuf [] (by omega), hroot]
        · rw [getD_set_ne bufs 0 i rootBuf [] (fun h => hir h.symm)]
          exact hbn i hi)
    (by intro i hi
        have hir : i = 0 := by omega
        rw [hir, getD_set_self bufs 0 rootBuf [] (by omega)])
    hch1
  refine ⟨bufs', ?_, hlen', hall⟩
  have hrange : List.range size = 0 :: List.range' 1 (size - 1) := by
    rw [List.range_eq_range']
    obtain ⟨m, hm⟩ : ∃ m, size = m + 1 := ⟨size - 1, by omega⟩
    rw [hm, List.range'_succ]
    have hm1 : m + 1 - 1 = m := by omega
    rw [hm1]
  simp only [runRanks, hrange, runRanksAux, hrun0', hrun']

theorem runRanks_ring (size n : Nat) (rootBuf : Buf) (bufs : List Buf)
    (h2 : 2 ≤ size) (hn : 1 ≤ n) (hroot : rootBuf.length = n)
    (hbl : bufs.length = size)
    (hbn : ∀ i, i < size → (bufs.getD i []).length = n)
    (hb0 : bufs.getD 0 [] = rootBuf) :
    ∃ final, runRanks size (ringProg size n) bufs = some final ∧ final.length = size ∧
      ∀ i, i < size → final.getD i [] = rootBuf :=
  runRanks_ringLike size n false [(0, n)] (ringProg size n) (fun _ => []) rootBuf bufs h2
    ⟨rfl, hn, trivial⟩ (by simp [lensSum]) hroot (ringProg_zero size n)
    (fun r h1 _ => ringProg_pos size n r h1)
    (fun r op hop => absurd hop (List.not_mem_nil op)) hbl hbn hb0

theorem runRanks_pipelined (size n cs : Nat) (rootBuf : Buf) (bufs : List Buf)
    (h2 : 2 ≤ size) (hcs : 1 ≤ cs) (hroot : rootBuf.length = n)
    (hbl : bufs.length = size)
    (hbn : ∀ i, i < size → (bufs.getD i []).length = n)
    (hb0 : bufs.getD 0 [] = rootBuf) :
    ∃ final, runRanks size (pipelinedRingProg size n cs) bufs = some final ∧
      final.length = size ∧ ∀ i, i < size → final.getD i [] = rootBuf :=
  runRanks_ringLike size n false (chunkPlan n cs) (pipelinedRingProg size n cs)
    (fun _ => []) rootBuf bufs h2 (chunkPlan_spec n cs hcs).1 (chunkPlan_spec n cs hcs).2
    hroot (pipelinedRingProg_zero size n cs)
    (fun r h1 _ => pipelinedRingProg_pos size n cs r h1)
    (fun r op hop => absurd hop (List.not_mem_nil op)) hbl hbn hb0

theorem runRanks_asyncRing (size n cs : Nat) (rootBuf : Buf) (bufs : List Buf)
    (h2 : 2 ≤ size) (hcs : 1 ≤ cs) (hroot : rootBuf.length = n)
    (hbl : bufs.length = size)
    (hbn : ∀ i, i < size → (bufs.getD i []).length = n)
    (hb0 : bufs.getD 0 [] = rootBuf) :
    ∃ final, runRanks size (asyncPipelinedRingProg size n cs) bufs = some final ∧
      final.length = size ∧ ∀ i, i < size → final.getD i [] = rootBuf :=
  runRanks_ringLike size n true (chunkPlan n cs) (asyncPipelinedRingProg size n cs)
    (fun _ => [Op.wait 0]) rootBuf bufs h2 (chunkPlan_spec n cs hcs).1
    (chunkPlan_spec n cs hcs).2 hroot (asyncPipelinedRingProg_zero size n cs)
    (fun r h1 _ => asyncPipelinedRingProg_pos size n cs r h1)
    (fun r op hop => by rw [List.mem_singleton.mp hop]; rfl) hbl hbn hb0

theorem runRanks_ring_one (n : Nat) (bufs : List Buf) :
    runRanks 1 (ringProg 1 n) bufs = none := by
  have hprog : ringProg 1 n 0 = [Op.send (0 + 1) 0 n] := by simp [ringProg]
  have hops : runOps 1 0 (ringProg 1 n 0) (bufs.getD 0 [], fun _ _ => []) = none := by
    rw [hprog]
    simp [runOps, runOp]
  have hr1 : List.range 1 = [0] := rfl
  simp only [runRanks, hr1, runRanksAux, hops]

theorem runRanks_pipelined_one (n cs : Nat) (hn : 1 ≤ n) (bufs : List Buf) :
    runRanks 1 (pipelinedRingProg 1 n cs) bufs = none := by
  obtain ⟨c, rest, hplan⟩ := chunkPlan_head n cs hn
  have hprog : pipelinedRingProg 1 n cs 0
      = Op.send (0 + 1) 0 c :: (rest.map fun p => Op.send (0 + 1) p.1 p.2) := by
    simp [pipelinedRingProg, hplan]
  have hops : runOps 1 0 (pipelinedRingProg 1 n cs 0) (bufs.getD 0 [], fun _ _ => [])
      = none := by
    rw [hprog]
    simp [runOps, runOp]
  have hr1 : List.range 1 = [0] := rfl
  simp only [runRanks, hr1, runRanksAux, hops]

theorem runRanks_asyncRing_one (n cs : Nat) (hn : 1 ≤ n) (bufs : List Buf) :
    runRanks 1 (asyncPipelinedRingProg 1 n cs) bufs = none := by
  obtain ⟨c, rest, hplan⟩ := chunkPlan_head n cs hn
  have hprog : asyncPipelinedRingProg 1 n cs 0
      = Op.isend 0 (0 + 1) 0 c :: (rest.map fun p => Op.isend 0 (0 + 1) p.1 p.2) := by
    simp [asyncPipelinedRingProg, hplan]
  have hops : runOps 1 0 (asyncPipelinedRingProg 1 n cs 0) (bufs.getD 0 [], fun _ _ => [])
      = none := by
    rw [hprog]
    simp [runOps, runOp]
  have hr1 : List.range 1 = [0] := rfl
  simp only [runRanks, hr1, runRanksAux, hops]

theorem defaultBcastRun_spec (size : Nat) (rootBuf : Buf) (bufs : List Buf)
    (hbl : bufs.length = size) (hb0 : bufs.getD 0 [] = rootBuf) :
    (defaultBcastRun bufs).length = size ∧
    ∀ i, i < size → (defaultBcastRun bufs).getD i [] = rootBuf := by
  constructor
  · simp [defaultBcastRun, hbl]
  · intro i hi
    have hlt : i < bufs.length := by omega
    have hmap : (bufs.map fun _ => bufs.getD 0 []).getD i [] = bufs.getD 0 [] := by
      simp [List.getD, List.getElem?_map, List.getElem?_replicate, hlt]
    rw [defaultBcastRun, hmap, hb0]

theorem hasRecv_append (l₁ l₂ : List Op) :
    hasRecv (l₁ ++ l₂) = (hasRecv l₁ || hasRecv l₂) := by
  simp [hasRecv]

theorem hasRecv_flatMap_false {α : Type} (l : List α) (f : α → List Op)
    (h : ∀ p ∈ l, hasRecv (f p) = false) : hasRecv (l.flatMap f) = false := by
  induction l with
  | nil => rfl
  | cons x xs ih =>
    rw [List.flatMap_cons, hasRecv_append, h x (List.mem_cons_self x xs),
      ih fun p hp => h p (List.mem_cons_of_mem _ hp)]
    rfl

theorem runOps_no_recv_buf (size r : Nat) :
    ∀ ops buf chs buf' chs', hasRecv ops = false →
      runOps size r ops (buf, chs) = some (buf', chs') → buf' = buf := by
  intro ops
  induction ops with
  | nil =>
    intro buf chs buf' chs' _ h
    have h' : (buf, chs) = (buf', chs') := by injection h
    rw [Prod.mk.injEq] at h'
    rw [← h'.1]
  | cons op ops ih =>
    intro buf chs buf' chs' hnr hrun
    have hnr2 : isRecvOp op = false ∧ hasRecv ops = false := by
      have := hnr
      rw [show hasRecv (op :: ops) = (isRecvOp op || hasRecv ops) by simp [hasRecv]] at this
      exact Bool.or_eq_false_iff.mp this
    cases op with
    | send d o l =>
      simp only [runOps, runOp] at hrun
      by_cases hd : d < size
      · rw [if_pos hd] at hrun
        exact ih buf _ buf' chs' hnr2.2 hrun
      · rw [if_neg hd] at hrun
        exact absurd hrun (by simp)
    | isend sl d o l =>
      simp only [runOps, runOp] at hrun
      by_cases hd : d < size
      · rw [if_pos hd] at hrun
        exact ih buf _ buf' chs' hnr2.2 hrun
      · rw [if_neg hd] at hrun
        exact absurd hrun (by simp)
    | recv s o l =>
      exact absurd hnr2.1 (by simp [isRecvOp])
    | wait sl =>
      simp only [runOps, runOp] at hrun
      exact ih buf chs buf' chs' hnr2.2 hrun
    | waitAll =>
      simp only [runOps, runOp] at hrun
      exact ih buf chs buf' chs' hnr2.2 hrun

theorem runRanksAux_preserve0 (size : Nat) (progOf : Nat → List Op) :
    ∀ rs bufs chs bufs' chs', (∀ x ∈ rs, x ≠ 0) →
      runRanksAux size progOf rs (bufs, chs) = some (bufs', chs') →
      bufs'.getD 0 [] = bufs.getD 0 [] := by
  intro rs
  induction rs with
  | nil =>
    intro bufs chs bufs' chs' _ h
    have h' : (bufs, chs) = (bufs', chs') := by injection h
    rw [Prod.mk.injEq] at h'
    rw [← h'.1]
  | cons r rs ih =>
    intro bufs chs bufs' chs' hne hrun
    simp only [runRanksAux] at hrun
    cases hrn : runOps size r (progOf r) (bufs.getD r [], chs) with
    | none =>
      rw [hrn] at hrun
      exact absurd hrun (by simp)
    | some st =>
      obtain ⟨buf₂, chs₂⟩ := st
      rw [hrn] at hrun
      have h0 := ih _ _ _ _ (fun x hx => hne x (List.mem_cons_of_mem _ hx)) hrun
      rw [h0, getD_set_ne bufs r 0 buf₂ [] (hne r (List.mem_cons_self r rs))]

theorem range_eq_cons (size : Nat) (h1 : 1 ≤ size) :
    List.range size = 0 :: List.range' 1 (size - 1) := by
  rw [List.range_eq_range']
  obtain ⟨m, hm⟩ : ∃ m, size = m + 1 := ⟨size - 1, by omega⟩
  rw [hm, List.range'_succ]
  have hm1 : m + 1 - 1 = m := by omega
  rw [hm1]

theorem runRanks_root_frame_aux (size : Nat) (progOf : Nat → List Op)
    (bufs final : List Buf) (h1 : 1 ≤ size) (hbl : bufs.length = size)
    (hnr : hasRecv (progOf 0) = false)
    (hrun : runRanks size progOf bufs = some final) :
    final.getD 0 [] = bufs.getD 0 [] := by
  rw [runRanks.eq_def, range_eq_cons size h1] at hrun
  simp only [runRanksAux] at hrun
  cases hrn : runOps size 0 (progOf 0) (bufs.getD 0 [], fun _ _ => []) with
  | none =>
    rw [hrn] at hrun
    exact absurd hrun (by simp)
  | some st =>
    obtain ⟨buf₂, chs₂⟩ := st
    rw [hrn] at hrun
    have hrun' : (match runRanksAux size progOf (List.range' 1 (size - 1))
        (bufs.set 0 buf₂, chs₂) with
      | none => none
      | some (bufs', _) => some bufs') = some final := hrun
    cases hrx : runRanksAux size progOf (List.range' 1 (size - 1))
        (bufs.set 0 buf₂, chs₂) with
    | none =>
      rw [hrx] at hrun'
      exact absurd hrun' (by simp)
    | some st₂ =>
      obtain ⟨bufs₃, chs₃⟩ := st₂
      rw [hrx] at hrun'
      have hfin : bufs₃ = final := by
        simpa using hrun'
      have hb2 : buf₂ = bufs.getD 0 [] :=
        runOps_no_recv_buf size 0 (progOf 0) _ _ _ _ hnr hrn
      have hpres := runRanksAux_preserve0 size progOf (List.range' 1 (size - 1))
        (bufs.set 0 buf₂) chs₂ bufs₃ chs₃
        (by intro x hx
            have := List.mem_range'_1.mp hx
            omega)
        hrx
      rw [← hfin, hpres, getD_set_self bufs 0 buf₂ [] (by omega), hb2]

theorem hasRecv_naive0 (size n : Nat) : hasRecv (naiveProg size n 0) = false := by
  simp [naiveProg, hasRecv, List.any_map, Function.comp, isRecvOp]
  intro x j hj1 hj2 hx
  subst hx
  rfl

theorem hasRecv_ring0 (size n : Nat) : hasRecv (ringProg size n 0) = false := by
  simp [ringProg, hasRecv, isRecvOp]

theorem hasRecv_pipelined0 (size n cs : Nat) :
    hasRecv (pipelinedRingProg size n cs 0) = false := by
  simp [pipelinedRingProg, hasRecv, List.any_map, Function.comp, isRecvOp]
  intro x o l hm hx
  subst hx
  rfl

theorem hasRecv_async0 (size n cs : Nat) :
    hasRecv (asyncPipelinedRingProg size n cs 0) = false := by
  simp [asyncPipelinedRingProg, hasRecv, List.any_map, Function.comp, isRecvOp]
  intro x o l hm hx
  subst hx
  rfl

theorem hasRecv_bintree0 (size n cs : Nat) :
    hasRecv (bintreeProg size n cs 0) = false := by
  rw [bintreeProg, hasRecv_append]
  have h1 : hasRecv ((chunkPlan n cs).flatMap fun p =>
      (if (0 : Nat) ≠ 0 then [Op.recv ((0 - 1) / 2) p.1 p.2] else [])
      ++ (if 0 * 2 + 1 < size then [Op.isend 0 (0 * 2 + 1) p.1 p.2] else [])
      ++ (if 0 * 2 + 2 < size then [Op.isend 1 (0 * 2 + 2) p.1 p.2] else [])) = false := by
    apply hasRecv_flatMap_false
    intro p _
    by_cases hL : 0 * 2 + 1 < size <;> by_cases hR : 0 * 2 + 2 < size <;>
      simp [hasRecv, isRecvOp, hL, hR]
  rw [h1]
  simp [hasRecv, isRecvOp]

/-- C1 (amended): for the substrate (default) broadcast, the naive fan-out
and the binary tree at every group size `1 ≤ size ≤ 64`, and for the ring,
pipelined ring and asynchronous pipelined ring at every size `2 ≤ size ≤ 64`,
the broadcast phase completes with every process's buffer byte-identical to
the root's original buffer; at `size = 1` the three ring strategies instead
issue a send to nonexistent rank 1 and the run fails. -/
theorem c1_broadcast_amended (size n cs : Nat) (rootBuf : Buf) (bufs : List Buf)
    (hs1 : 1 ≤ size) (hs64 : size ≤ 64) (hn : 1 ≤ n) (hcs : 1 ≤ cs)
    (hroot : rootBuf.length = n) (hbl : bufs.length = size)
    (hbn : ∀ i, i < size → (bufs.getD i []).length = n)
    (hb0 : bufs.getD 0 [] = rootBuf) :
    ((defaultBcastRun bufs).length = size ∧
      ∀ i, i < size → (defaultBcastRun bufs).getD i [] = rootBuf) ∧
    (∃ final, runRanks size (naiveProg size n) bufs = some final ∧
      final.length = size ∧ ∀ i, i < size → final.getD i [] = rootBuf) ∧
    (∃ final, runRanks size (bintreeProg size n cs) bufs = some final ∧
      final.length = size ∧ ∀ i, i < size → final.getD i [] = rootBuf) ∧
    (2 ≤ size →
      (∃ final, runRanks size (ringProg size n) bufs = some final ∧
        final.length = size ∧ ∀ i, i < size → final.getD i [] = rootBuf) ∧
      (∃ final, runRanks size (pipelinedRingProg size n cs) bufs = some final ∧
        final.length = size ∧ ∀ i, i < size → final.getD i [] = rootBuf) ∧
      (∃ final, runRanks size (asyncPipelinedRingProg size n cs) bufs = some final ∧
        final.length = size ∧ ∀ i, i < size → final.getD i [] = rootBuf)) ∧
    (size = 1 →
      runRanks 1 (ringProg 1 n) bufs = none ∧
      runRanks 1 (pipelinedRingProg 1 n cs) bufs = none ∧
      runRanks 1 (asyncPipelinedRingProg 1 n cs) bufs = none) :=
  ⟨defaultBcastRun_spec size rootBuf bufs hbl hb0,
    runRanks_naive size n rootBuf bufs hs1 hroot hbl hbn hb0,
    runRanks_bintree size n cs rootBuf bufs hs1 hcs hroot hbl hbn hb0,
    fun h2 => ⟨runRanks_ring size n rootBuf bufs h2 hn hroot hbl hbn hb0,
      runRanks_pipelined size n cs rootBuf bufs h2 hcs hroot hbl hbn hb0,
      runRanks_asyncRing size n cs rootBuf bufs h2 hcs hroot hbl hbn hb0⟩,
    fun _ => ⟨runRanks_ring_one n bufs, runRanks_pipelined_one n cs hn bufs,
      runRanks_asyncRing_one n cs hn bufs⟩⟩

/-- C1 counterexample: the claim covers group size 1 for every strategy, but
at size 1 the ring strategy's root executes `MPI_Send(..., rank+1, ...)` with
`rank+1 = 1` outside the group, so the run fails instead of completing with
every buffer equal to the root's. -/
theorem c1_counterexample_ring_size1 :
    runRanks 1 (ringProg 1 4) [[1, 2, 3, 4]] = none := by
  decide

theorem c1_broadcast_amended_witness :
    (((defaultBcastRun [[5, 6], [0, 0]]).length = 2 ∧
      ∀ i, i < 2 → (defaultBcastRun [[5, 6], [0, 0]]).getD i [] = [5, 6]) ∧
    (∃ final, runRanks 2 (naiveProg 2 2) [[5, 6], [0, 0]] = some final ∧
      final.length = 2 ∧ ∀ i, i < 2 → final.getD i [] = [5, 6]) ∧
    (∃ final, runRanks 2 (bintreeProg 2 2 1) [[5, 6], [0, 0]] = some final ∧
      final.length = 2 ∧ ∀ i, i < 2 → final.getD i [] = [5, 6]) ∧
    (2 ≤ 2 →
      (∃ final, runRanks 2 (ringProg 2 2) [[5, 6], [0, 0]] = some final ∧
        final.length = 2 ∧ ∀ i, i < 2 → final.getD i [] = [5, 6]) ∧
      (∃ final, runRanks 2 (pipelinedRingProg 2 2 1) [[5, 6], [0, 0]] = some final ∧
        final.length = 2 ∧ ∀ i, i < 2 → final.getD i [] = [5, 6]) ∧
      (∃ final, runRanks 2 (asyncPipelinedRingProg 2 2 1) [[5, 6], [0, 0]] = some final ∧
        final.length = 2 ∧ ∀ i, i < 2 → final.getD i [] = [5, 6])) ∧
    (2 = 1 →
      runRanks 1 (ringProg 1 2) [[5, 6], [0, 0]] = none ∧
      runRanks 1 (pipelinedRingProg 1 2 1) [[5, 6], [0, 0]] = none ∧
      runRanks 1 (asyncPipelinedRingProg 1 2 1) [[5, 6], [0, 0]] = none)) :=
  c1_broadcast_amended 2 2 1 [5, 6] [[5, 6], [0, 0]]
    (by decide) (by decide) (by decide) (by decide) (by decide) (by decide)
    (by decide) (by decide)

/-- C10: in every branch of the broadcast dispatch the root only sends — no
strategy's rank-0 program contains a receive — and any run of the broadcast
phase that completes leaves the root's buffer exactly as it was seeded
(the substrate's collective likewise returns the root's own buffer). -/
theorem c10_root_never_receives (size n cs : Nat) (bufs : List Buf)
    (h1 : 1 ≤ size) (hbl : bufs.length = size) :
    (hasRecv (naiveProg size n 0) = false ∧
      hasRecv (ringProg size n 0) = false ∧
      hasRecv (pipelinedRingProg size n cs 0) = false ∧
      hasRecv (asyncPipelinedRingProg size n cs 0) = false ∧
      hasRecv (bintreeProg size n cs 0) = false) ∧
    (∀ progOf final, hasRecv (progOf 0) = false →
      runRanks size progOf bufs = some final →
      final.getD 0 [] = bufs.getD 0 []) ∧
    (defaultBcastRun bufs).getD 0 [] = bufs.getD 0 [] :=
  ⟨⟨hasRecv_naive0 size n, hasRecv_ring0 size n, hasRecv_pipelined0 size n cs,
    hasRecv_async0 size n cs, hasRecv_bintree0 size n cs⟩,
    fun progOf final hnr hrun =>
      runRanks_root_frame_aux size progOf bufs final h1 hbl hnr hrun,
    (defaultBcastRun_spec size (bufs.getD 0 []) bufs hbl rfl).2 0 (by omega)⟩

theorem c10_root_never_receives_witness :
    ((hasRecv (naiveProg 1 1 0) = false ∧
      hasRecv (ringProg 1 1 0) = false ∧
      hasRecv (pipelinedRingProg 1 1 1 0) = false ∧
      hasRecv (asyncPipelinedRingProg 1 1 1 0) = false ∧
      hasRecv (bintreeProg 1 1 1 0) = false) ∧
    (∀ progOf final, hasRecv (progOf 0) = false →
      runRanks 1 progOf [[5]] = some final →
      final.getD 0 [] = [[5]].getD 0 []) ∧
    (defaultBcastRun [[5]]).getD 0 [] = [[5]].getD 0 []) :=
  c10_root_never_receives 1 1 1 [[5]] (by decide) (by decide)

theorem hWait_inv (st : HState) (slot : Nat) (h : hInv st) : hInv (hWait st slot) := by
  obtain ⟨hw, hnd, h0, h1, hij⟩ := h
  by_cases hs : slot = 0
  · subst hs
    cases hs0 : st.slot0 with
    | none =>
      have hred : hWait st 0 = { st with badWaits := st.badWaits + 1 } := by
        unfold hWait
        rw [if_pos rfl, hs0]
      rw [hred]
      exact ⟨hw, hnd, h0, h1, hij⟩
    | some i =>
      have hred : hWait st 0
          = ⟨st.nextId, none, st.slot1, st.waited ++ [i], st.badWaits⟩ := by
        unfold hWait
        rw [if_pos rfl, hs0]
        rfl
      rw [hred]
      obtain ⟨hi, hni⟩ := h0 i hs0
      refine ⟨?_, ?_, ?_, ?_, ?_⟩
      · intro x hx
        rcases List.mem_append.mp hx with hx | hx
        · exact hw x hx
        · rw [List.mem_singleton.mp hx]
          exact hi
      · exact List.Nodup.append hnd (List.nodup_singleton i)
          (fun a ha hai => hni ((List.mem_singleton.mp hai) ▸ ha))
      · intro x hx
        exact nomatch hx
      · intro j hj
        obtain ⟨hj1, hj2⟩ := h1 j hj
        refine ⟨hj1, ?_⟩
        intro hmem
        rcases List.mem_append.mp hmem with hm | hm
        · exact hj2 hm
        · exact hij i j hs0 hj (List.mem_singleton.mp hm).symm
      · intro x j hx
        exact nomatch hx
  · cases hs1 : st.slot1 with
    | none =>
      have hred : hWait st slot = { st with badWaits := st.badWaits + 1 } := by
        unfold hWait
        rw [if_neg hs, hs1]
      rw [hred]
      exact ⟨hw, hnd, h0, h1, hij⟩
    | some i =>
      have hred : hWait st slot
          = ⟨st.nextId, st.slot0, none, st.waited ++ [i], st.badWaits⟩ := by
        unfold hWait
        rw [if_neg hs, hs1]
        rw [if_neg hs, if_neg hs]
      rw [hred]
      obtain ⟨hi, hni⟩ := h1 i hs1
      refine ⟨?_, ?_, ?_, ?_, ?_⟩
      · intro x hx
        rcases List.mem_append.mp hx with hx | hx
        · exact hw x hx
        · rw [List.mem_singleton.mp hx]
          exact hi
      · exact List.Nodup.append hnd (List.nodup_singleton i)
          (fun a ha hai => hni ((List.mem_singleton.mp hai) ▸ ha))
      · intro j hj
        obtain ⟨hj1, hj2⟩ := h0 j hj
        refine ⟨hj1, ?_⟩
        intro hmem
        rcases List.mem_append.mp hmem with hm | hm
        · exact hj2 hm
        · exact hij j i hj hs1 (List.mem_singleton.mp hm)
      · intro x hx
        exact nomatch hx
      · intro x j hx hj
        exact nomatch hj

theorem hInv_mk (a : Nat) (s0 s1 : Option Nat) (w : List Nat) (bw : Nat)
    (h : (∀ i ∈ w, i < a) ∧ w.Nodup ∧ (∀ i, s0 = some i → i < a ∧ i ∉ w) ∧
      (∀ i, s1 = some i → i < a ∧ i ∉ w) ∧
      (∀ i j, s0 = some i → s1 = some j → i ≠ j)) :
    hInv ⟨a, s0, s1, w, bw⟩ := h

theorem hStep_inv (st : HState) (op : Op) (h : hInv st) : hInv (hStep st op) := by
  cases op with
  | isend slot d o l =>
    obtain ⟨hw, hnd, h0, h1, hij⟩ := h
    by_cases hs : slot = 0
    · have hred0 : hStep st (Op.isend slot d o l)
          = if slot = 0 then { st with nextId := st.nextId + 1, slot0 := some st.nextId }
            else { st with nextId := st.nextId + 1, slot1 := some st.nextId } := rfl
      have hred : hStep st (Op.isend slot d o l)
          = { st with nextId := st.nextId + 1, slot0 := some st.nextId } := by
        rw [hred0, if_pos hs]
      rw [hred]
      refine hInv_mk (st.nextId + 1) (some st.nextId) st.slot1 st.waited st.badWaits
        ⟨fun x hx => by have := hw x hx; omega, hnd, ?_, ?_, ?_⟩
      · intro i hi
        have hii : st.nextId = i := by injection hi
        subst hii
        exact ⟨by omega, fun hmem => by have := hw _ hmem; omega⟩
      · intro j hj
        obtain ⟨hj1, hj2⟩ := h1 j hj
        exact ⟨by omega, hj2⟩
      · intro i j hi hj
        have hii : st.nextId = i := by injection hi
        obtain ⟨hj1, _⟩ := h1 j hj
        omega
    · have hred0 : hStep st (Op.isend slot d o l)
          = if slot = 0 then { st with nextId := st.nextId + 1, slot0 := some st.nextId }
            else { st with nextId := st.nextId + 1, slot1 := some st.nextId } := rfl
      have hred : hStep st (Op.isend slot d o l)
          = { st with nextId := st.nextId + 1, slot1 := some st.nextId } := by
        rw [hred0, if_neg hs]
      rw [hred]
      refine hInv_mk (st.nextId + 1) st.slot0 (some st.nextId) st.waited st.badWaits
        ⟨fun x hx => by have := hw x hx; omega, hnd, ?_, ?_, ?_⟩
      · intro j hj
        obtain ⟨hj1, hj2⟩ := h0 j hj
        exact ⟨by omega, hj2⟩
      · intro i hi
        have hii : st.nextId = i := by injection hi
        subst hii
        exact ⟨by omega, fun hmem => by have := hw _ hmem; omega⟩
      · intro i j hi hj
        have hjj : st.nextId = j := by injection hj
        obtain ⟨hi1, _⟩ := h0 i hi
        omega
  | wait slot => exact hWait_inv st slot h
  | waitAll => exact hWait_inv _ 1 (hWait_inv st 0 h)
  | send d o l => exact h
  | recv s o l => exact h

theorem foldl_hInv : ∀ (ops : List Op) (st : HState), hInv st → hInv (ops.foldl hStep st) := by
  intro ops
  induction ops with
  | nil => intro st h; exact h
  | cons op ops ih => intro st h; exact ih _ (hStep_inv st op h)

theorem handleSim_inv (ops : List Op) : hInv (handleSim ops) := by
  apply foldl_hInv
  refine ⟨?_, ?_, ?_, ?_, ?_⟩
  · intro i hi
    exact absurd hi (List.not_mem_nil i)
  · exact List.nodup_nil
  · intro i hi
    exact nomatch hi
  · intro i hi
    exact nomatch hi
  · intro i j hi _
    exact nomatch hi

theorem hfold_flatMap_congr (f g : (Nat × Nat) → List Op)
    (hequiv : ∀ p st, (f p).foldl hStep st = (g p).foldl hStep st) :
    ∀ (plan : List (Nat × Nat)) (st : HState),
      (plan.flatMap f).foldl hStep st = (plan.flatMap g).foldl hStep st := by
  intro plan
  induction plan with
  | nil => intro st; rfl
  | cons p rest ih =>
    intro st
    rw [List.flatMap_cons, List.flatMap_cons, List.foldl_append, List.foldl_append,
      hequiv p st, ih]

theorem flatMap_const_nil {α : Type} (l : List α) :
    (l.flatMap fun _ => ([] : List Op)) = [] := by
  induction l with
  | nil => rfl
  | cons x xs ih => simp [List.flatMap_cons, ih]

theorem hfold_isends0 (d : Nat) :
    ∀ (ps : List (Nat × Nat)) (st : HState), ps ≠ [] →
      (ps.map fun p => Op.isend 0 d p.1 p.2).foldl hStep st
        = { st with
            nextId := st.nextId + ps.length
            slot0 := some (st.nextId + ps.length - 1) } := by
  intro ps
  induction ps with
  | nil => intro st h; exact absurd rfl h
  | cons p rest ih =>
    intro st _
    rw [List.map_cons, List.foldl_cons]
    have hstep : hStep st (Op.isend 0 d p.1 p.2)
        = { st with nextId := st.nextId + 1, slot0 := some st.nextId } := rfl
    rw [hstep]
    cases rest with
    | nil =>
      simp [HState.mk.injEq]
    | cons q rest' =>
      rw [ih _ (by simp)]
      simp [HState.mk.injEq]
      omega

theorem hfold_tree2 (L R : Nat) :
    ∀ (ps : List (Nat × Nat)) (st : HState), ps ≠ [] →
      (ps.flatMap fun p => [Op.isend 0 L p.1 p.2, Op.isend 1 R p.1 p.2]).foldl hStep st
        = { st with
            nextId := st.nextId + 2 * ps.length
            slot0 := some (st.nextId + 2 * ps.length - 2)
            slot1 := some (st.nextId + 2 * ps.length - 1) } := by
  intro ps
  induction ps with
  | nil => intro st h; exact absurd rfl h
  | cons p rest ih =>
    intro st _
    rw [List.flatMap_cons, List.foldl_append]
    have hstep : ([Op.isend 0 L p.1 p.2, Op.isend 1 R p.1 p.2]).foldl hStep st
        = { st with
            nextId := st.nextId + 2
            slot0 := some st.nextId
            slot1 := some (st.nextId + 1) } := rfl
    rw [hstep]
    cases rest with
    | nil =>
      simp [HState.mk.injEq]
    | cons q rest' =>
      rw [ih _ (by simp)]
      simp [HState.mk.injEq]
      omega

theorem hStep_recv (st : HState) (s o l : Nat) : hStep st (Op.recv s o l) = st := rfl

theorem foldl_wait0 (st : HState) : [Op.wait 0].foldl hStep st = hWait st 0 := rfl

theorem foldl_waitAll (st : HState) : [Op.waitAll].foldl hStep st = hWait (hWait st 0) 1 := rfl

theorem hWait0_some (st : HState) (i : Nat) (h : st.slot0 = some i) :
    hWait st 0 = { st with waited := st.waited ++ [i], slot0 := none } := by
  unfold hWait
  rw [if_pos rfl, h]
  rfl

theorem hWait0_none (st : HState) (h : st.slot0 = none) :
    hWait st 0 = { st with badWaits := st.badWaits + 1 } := by
  unfold hWait
  rw [if_pos rfl, h]

theorem hWait1_some (st : HState) (i : Nat) (h : st.slot1 = some i) :
    hWait st 1 = { st with waited := st.waited ++ [i], slot1 := none } := by
  unfold hWait
  rw [if_neg (by omega : ¬ (1 = 0)), h]
  rw [if_neg (by omega : ¬ (1 = 0)), if_neg (by omega : ¬ (1 = 0))]

theorem hWait1_none (st : HState) (h : st.slot1 = none) :
    hWait st 1 = { st with badWaits := st.badWaits + 1 } := by
  unfold hWait
  rw [if_neg (by omega : ¬ (1 = 0)), h]

theorem chunkPlan_length_pos (n cs : Nat) (hn : 1 ≤ n) : 1 ≤ (chunkPlan n cs).length := by
  obtain ⟨c, rest, h⟩ := chunkPlan_head n cs hn
  rw [h]
  simp

theorem chunkPlan_ne_nil (n cs : Nat) (hn : 1 ≤ n) : chunkPlan n cs ≠ [] := by
  obtain ⟨c, rest, h⟩ := chunkPlan_head n cs hn
  rw [h]
  simp

theorem handleSim_async_root (size n cs : Nat) (hn : 1 ≤ n) :
    handleSim (asyncPipelinedRingProg size n cs 0)
      = ⟨(chunkPlan n cs).length, some ((chunkPlan n cs).length - 1), none, [], 0⟩ := by
  have hprog : asyncPipelinedRingProg size n cs 0
      = (chunkPlan n cs).map fun p => Op.isend 0 (0 + 1) p.1 p.2 := by
    simp [asyncPipelinedRingProg]
  simp only [handleSim, hprog]
  rw [hfold_isends0 (0 + 1) (chunkPlan n cs) initH (chunkPlan_ne_nil n cs hn)]
  simp [initH, HState.mk.injEq]

theorem handleSim_async_mid (size n cs r : Nat) (h1 : 1 ≤ r) (hr : r < size - 1)
    (hn : 1 ≤ n) :
    handleSim (asyncPipelinedRingProg size n cs r)
      = ⟨(chunkPlan n cs).length, none, none, [(chunkPlan n cs).length - 1], 0⟩ := by
  have hne0 : r ≠ 0 := by omega
  have hrne : r ≠ size - 1 := by omega
  have hprog : asyncPipelinedRingProg size n cs r
      = ((chunkPlan n cs).flatMap fun p =>
          [Op.recv (r - 1) p.1 p.2, Op.isend 0 (r + 1) p.1 p.2]) ++ [Op.wait 0] := by
    simp only [asyncPipelinedRingProg, if_neg hne0]
    congr 1
    apply flatMap_congrFun
    intro p
    simp [hrne]
  simp only [handleSim, hprog, List.foldl_append]
  rw [hfold_flatMap_congr
    (fun p => [Op.recv (r - 1) p.1 p.2, Op.isend 0 (r + 1) p.1 p.2])
    (fun p => [Op.isend 0 (r + 1) p.1 p.2]) (fun p st => rfl) (chunkPlan n cs) initH]
  rw [flatMap_map_singleton (chunkPlan n cs) fun p => Op.isend 0 (r + 1) p.1 p.2]
  rw [hfold_isends0 (r + 1) (chunkPlan n cs) initH (chunkPlan_ne_nil n cs hn)]
  rw [foldl_wait0, hWait0_some _ (initH.nextId + (chunkPlan n cs).length - 1) rfl]
  simp [initH, HState.mk.injEq]

theorem handleSim_async_last (size n cs : Nat) (h2 : 2 ≤ size) :
    handleSim (asyncPipelinedRingProg size n cs (size - 1)) = ⟨0, none, none, [], 1⟩ := by
  have hne0 : size - 1 ≠ 0 := by omega
  have hprog : asyncPipelinedRingProg size n cs (size - 1)
      = ((chunkPlan n cs).flatMap fun p => [Op.recv (size - 1 - 1) p.1 p.2])
        ++ [Op.wait 0] := by
    simp only [asyncPipelinedRingProg, if_neg hne0]
    congr 1
    apply flatMap_congrFun
    intro p
    simp
  simp only [handleSim, hprog, List.foldl_append]
  rw [hfold_flatMap_congr (fun p => [Op.recv (size - 1 - 1) p.1 p.2])
    (fun _ => []) (fun p st => rfl) (chunkPlan n cs) initH]
  rw [flatMap_const_nil]
  rfl

theorem handleSim_bintree_fields (size n cs r : Nat) (hn : 1 ≤ n) :
    (handleSim (bintreeProg size n cs r)).waited
      = (if r * 2 + 2 < size then
          [2 * (chunkPlan n cs).length - 2, 2 * (chunkPlan n cs).length - 1]
        else if r * 2 + 1 < size then [(chunkPlan n cs).length - 1]
        else []) ∧
    (handleSim (bintreeProg size n cs r)).badWaits = 2 - childCount size r ∧
    (handleSim (bintreeProg size n cs r)).nextId
      = childCount size r * (chunkPlan n cs).length := by
  have hLR : r * 2 + 2 < size → r * 2 + 1 < size := by omega
  by_cases hR : r * 2 + 2 < size
  · have hL : r * 2 + 1 < size := hLR hR
    have hsim : handleSim (bintreeProg size n cs r)
        = hWait (hWait ({ initH with
            nextId := initH.nextId + 2 * (chunkPlan n cs).length
            slot0 := some (initH.nextId + 2 * (chunkPlan n cs).length - 2)
            slot1 := some (initH.nextId + 2 * (chunkPlan n cs).length - 1) }) 0) 1 := by
      simp only [handleSim, bintreeProg, List.foldl_append]
      rw [hfold_flatMap_congr
        (fun p => (if r ≠ 0 then [Op.recv ((r - 1) / 2) p.1 p.2] else [])
          ++ (if r * 2 + 1 < size then [Op.isend 0 (r * 2 + 1) p.1 p.2] else [])
          ++ (if r * 2 + 2 < size then [Op.isend 1 (r * 2 + 2) p.1 p.2] else []))
        (fun p => [Op.isend 0 (r * 2 + 1) p.1 p.2, Op.isend 1 (r * 2 + 2) p.1 p.2])
        (fun p st => by
          by_cases h0 : r = 0
          · have hL' : 1 < size := by omega
            have hR' : 2 < size := by omega
            simp [h0, hL', hR', List.foldl_cons, List.foldl_append, hStep_recv]
          · simp [h0, hL, hR, List.foldl_cons, List.foldl_append, hStep_recv])
        (chunkPlan n cs) initH]
      rw [hfold_tree2 (r * 2 + 1) (r * 2 + 2) (chunkPlan n cs) initH
        (chunkPlan_ne_nil n cs hn)]
      rw [foldl_waitAll]
    rw [hsim]
    rw [hWait0_some _ (initH.nextId + 2 * (chunkPlan n cs).length - 2) rfl]
    rw [hWait1_some _ (initH.nextId + 2 * (chunkPlan n cs).length - 1) rfl]
    have hcc : childCount size r = 2 := by simp [childCount, hL, hR]
    refine ⟨?_, ?_, ?_⟩
    · rw [if_pos hR]
      simp [initH]
    · rw [hcc]
      simp [initH]
    · rw [hcc]
      simp [initH]
  · by_cases hL : r * 2 + 1 < size
    · have hsim : handleSim (bintreeProg size n cs r)
          = hWait (hWait ({ initH with
              nextId := initH.nextId + (chunkPlan n cs).length
              slot0 := some (initH.nextId + (chunkPlan n cs).length - 1) }) 0) 1 := by
        simp only [handleSim, bintreeProg, List.foldl_append]
        rw [hfold_flatMap_congr
          (fun p => (if r ≠ 0 then [Op.recv ((r - 1) / 2) p.1 p.2] else [])
            ++ (if r * 2 + 1 < size then [Op.isend 0 (r * 2 + 1) p.1 p.2] else [])
            ++ (if r * 2 + 2 < size then [Op.isend 1 (r * 2 + 2) p.1 p.2] else []))
          (fun p => [Op.isend 0 (r * 2 + 1) p.1 p.2])
          (fun p st => by
            by_cases h0 : r = 0
            · have hL' : 1 < size := by omega
              have hR' : ¬ 2 < size := by omega
              simp [h0, hL', hR', List.foldl_cons, List.foldl_append, hStep_recv]
            · simp [h0, hL, hR, List.foldl_cons, List.foldl_append, hStep_recv])
          (chunkPlan n cs) initH]
        rw [flatMap_map_singleton (chunkPlan n cs) fun p => Op.isend 0 (r * 2 + 1) p.1 p.2]
        rw [hfold_isends0 (r * 2 + 1) (chunkPlan n cs) initH (chunkPlan_ne_nil n cs hn)]
        rw [foldl_waitAll]
      rw [hsim]
      rw [hWait0_some _ (initH.nextId + (chunkPlan n cs).length - 1) rfl]
      rw [hWait1_none _ rfl]
      have hcc : childCount size r = 1 := by simp [childCount, hL, hR]
      refine ⟨?_, ?_, ?_⟩
      · rw [if_neg hR, if_pos hL]
        simp [initH]
      · rw [hcc]
        simp [initH]
      · rw [hcc]
        simp [initH]
    · have hsim : handleSim (bintreeProg size n cs r) = hWait (hWait initH 0) 1 := by
        simp only [handleSim, bintreeProg, List.foldl_append]
        rw [hfold_flatMap_congr
          (fun p => (if r ≠ 0 then [Op.recv ((r - 1) / 2) p.1 p.2] else [])
            ++ (if r * 2 + 1 < size then [Op.isend 0 (r * 2 + 1) p.1 p.2] else [])
            ++ (if r * 2 + 2 < size then [Op.isend 1 (r * 2 + 2) p.1 p.2] else []))
          (fun _ => [])
          (fun p st => by
            by_cases h0 : r = 0
            · have hL' : ¬ 1 < size := by omega
              have hR' : ¬ 2 < size := by omega
              simp [h0, hL', hR', List.foldl_cons, List.foldl_append, hStep_recv]
            · simp [h0, hL, hR, List.foldl_cons, List.foldl_append, hStep_recv])
          (chunkPlan n cs) initH]
        rw [flatMap_const_nil]
        rw [foldl_waitAll]
        rfl
      rw [hsim, hWait0_none _ rfl, hWait1_none _ rfl]
      have hcc : childCount size r = 0 := by simp [childCount, hL, hR]
      refine ⟨?_, ?_, ?_⟩
      · rw [if_neg hR, if_neg hL]
        rfl
      · rw [hcc]
        rfl
      · rw [hcc]
        simp [initH]

/-- C4 counterexample: at group size 2 with a 16-byte payload and chunk size
5, the asynchronous-ring root issues four isends and executes no wait at all
before leaving the broadcast phase, so not every non-blocking send it issued
is waited on. -/
theorem c4_counterexample_root_never_waits :
    allIsendsWaited (asyncPipelinedRingProg 2 16 5 0) = false := by
  decide

/-- C4 (amended): only the handle most recently stored in a request variable
ever reaches a wait.  In the asynchronous pipelined ring the root issues one
isend per chunk and never waits; a non-terminal non-root rank waits exactly
its final isend; the terminal rank waits without ever having issued an
isend.  In the binary tree each rank's single waitAll covers only the final
chunk's handles — two, one or none according to its children — while all
earlier isend handles are overwritten unwaited. -/
theorem c4_only_last_handles_waited (size n cs : Nat) (h2 : 2 ≤ size)
    (hn : 1 ≤ n) (hcs : 1 ≤ cs) :
    1 ≤ (chunkPlan n cs).length ∧
    (handleSim (asyncPipelinedRingProg size n cs 0)).nextId = (chunkPlan n cs).length ∧
    (handleSim (asyncPipelinedRingProg size n cs 0)).waited = [] ∧
    (∀ r, 1 ≤ r → r < size - 1 →
      (handleSim (asyncPipelinedRingProg size n cs r)).nextId = (chunkPlan n cs).length ∧
      (handleSim (asyncPipelinedRingProg size n cs r)).waited
        = [(chunkPlan n cs).length - 1]) ∧
    (handleSim (asyncPipelinedRingProg size n cs (size - 1))).nextId = 0 ∧
    (handleSim (asyncPipelinedRingProg size n cs (size - 1))).waited = [] ∧
    (∀ r, r < size →
      (handleSim (bintreeProg size n cs r)).waited
        = (if r * 2 + 2 < size then
            [2 * (chunkPlan n cs).length - 2, 2 * (chunkPlan n cs).length - 1]
          else if r * 2 + 1 < size then [(chunkPlan n cs).length - 1]
          else [])) := by
  refine ⟨chunkPlan_length_pos n cs hn, ?_, ?_, ?_, ?_, ?_, ?_⟩
  · rw [handleSim_async_root size n cs hn]
  · rw [handleSim_async_root size n cs hn]
  · intro r h1 hr
    rw [handleSim_async_mid size n cs r h1 hr hn]
    exact ⟨rfl, rfl⟩
  · rw [handleSim_async_last size n cs h2]
  · rw [handleSim_async_last size n cs h2]
  · intro r _
    exact (handleSim_bintree_fields size n cs r hn).1

theorem c4_only_last_handles_waited_witness :
    (1 ≤ (chunkPlan 16 5).length ∧
    (handleSim (asyncPipelinedRingProg 4 16 5 0)).nextId = (chunkPlan 16 5).length ∧
    (handleSim (asyncPipelinedRingProg 4 16 5 0)).waited = [] ∧
    (∀ r, 1 ≤ r → r < 4 - 1 →
      (handleSim (asyncPipelinedRingProg 4 16 5 r)).nextId = (chunkPlan 16 5).length ∧
      (handleSim (asyncPipelinedRingProg 4 16 5 r)).waited
        = [(chunkPlan 16 5).length - 1]) ∧
    (handleSim (asyncPipelinedRingProg 4 16 5 (4 - 1))).nextId = 0 ∧
    (handleSim (asyncPipelinedRingProg 4 16 5 (4 - 1))).waited = [] ∧
    (∀ r, r < 4 →
      (handleSim (bintreeProg 4 16 5 r)).waited
        = (if r * 2 + 2 < 4 then
            [2 * (chunkPlan 16 5).length - 2, 2 * (chunkPlan 16 5).length - 1]
          else if r * 2 + 1 < 4 then [(chunkPlan 16 5).length - 1]
          else []))) :=
  c4_only_last_handles_waited 4 16 5 (by decide) (by decide) (by decide)

/-- C7 counterexample: at group size 2 the asynchronous ring's terminal rank
(rank 1) never issues an isend, yet still executes its final
`MPI_Wait(&request)` — a wait that consumes no handle created by an isend of
the run, contrary to the claim. -/
theorem c7_counterexample_terminal_wait_uninitialised :
    (handleSim (asyncPipelinedRingProg 2 16 5 1)).nextId = 0 ∧
    (handleSim (asyncPipelinedRingProg 2 16 5 1)).badWaits = 1 := by
  decide

/-- C7 (amended): every handle that reaches a wait was created by an isend
of the same rank's run and no handle is waited twice; but a wait may execute
on a request variable no isend ever initialised: the asynchronous ring's
terminal rank waits having issued no isend, and a binary-tree rank's waitAll
touches `2 − childCount` uninitialised slots. -/
theorem c7_waits_sound_but_uninitialised (size n cs : Nat) (ops : List Op)
    (h2 : 2 ≤ size) (hn : 1 ≤ n) :
    (∀ i ∈ (handleSim ops).waited, i < (handleSim ops).nextId) ∧
    (handleSim ops).waited.Nodup ∧
    (handleSim (asyncPipelinedRingProg size n cs (size - 1))).badWaits = 1 ∧
    (∀ r, r < size →
      (handleSim (bintreeProg size n cs r)).badWaits = 2 - childCount size r) := by
  refine ⟨(handleSim_inv ops).1, (handleSim_inv ops).2.1, ?_, ?_⟩
  · rw [handleSim_async_last size n cs h2]
  · intro r _
    exact (handleSim_bintree_fields size n cs r hn).2.1

theorem c7_waits_sound_but_uninitialised_witness :
    ((∀ i ∈ (handleSim (asyncPipelinedRingProg 2 16 5 1)).waited,
        i < (handleSim (asyncPipelinedRingProg 2 16 5 1)).nextId) ∧
    (handleSim (asyncPipelinedRingProg 2 16 5 1)).waited.Nodup ∧
    (handleSim (asyncPipelinedRingProg 2 16 5 (2 - 1))).badWaits = 1 ∧
    (∀ r, r < 2 →
      (handleSim (bintreeProg 2 16 5 r)).badWaits = 2 - childCount 2 r)) :=
  c7_waits_sound_but_uninitialised 2 16 5 (asyncPipelinedRingProg 2 16 5 1)
    (by decide) (by decide)

/-- C9 counterexample: quantified over all ranks including the root, the
claimed equivalence fails at `size = 1`, `r = 0`, `c = 0`: with the code's
truncating division `(0-1)/2 = 0`, the parent link of rank 0 is 0, yet 0 is
not a child of 0. -/
theorem c9_counterexample_rank_zero :
    ¬ ((isTreeChild 1 0 0 = true) ↔ treeParent 0 = 0) := by
  decide

/-- C9 (amended): for every size and all ranks `r, c` in `[0, size)` with
`c ≥ 1` — that is, for every possible non-root receiver — `c` is a child of
`r` under the tree strategy's send guards iff the parent link `(c-1)/2`
equals `r`; hence each non-root rank receives from exactly the rank that
sends to it. -/
theorem c9_parent_child_consistent (size r c : Nat) (hr : r < size) (hc : c < size)
    (h1 : 1 ≤ c) : (isTreeChild size r c = true) ↔ treeParent c = r := by
  simp only [isTreeChild, treeParent, Bool.and_eq_true, Bool.or_eq_true, beq_iff_eq,
    decide_eq_true_eq]
  constructor
  · intro h
    omega
  · intro h
    refine ⟨?_, hc⟩
    omega

theorem c9_parent_child_consistent_witness :
    (isTreeChild 4 1 3 = true) ↔ treeParent 3 = 1 :=
  c9_parent_child_consistent 4 1 3 (by decide) (by decide) (by decide)

/-- C2: with three processes (so two pending checksum messages) and a first
checksum that mismatches the reference, the `break` makes the root stop
after receiving only 1 of the 2 messages; a mismatch-free run receives
both.  This contradicts the claim — and the code's own comment at source
lines 233-235, which promises to keep receiving so every process reaches
`MPI_Finalize`. -/
theorem c2_break_stops_draining :
    drainChecksums 0 [1, 0] = (false, 1) ∧
    drainChecksums 0 [0, 0] = (true, 2) := by
  decide

/-- C5 counterexample: chunk sizes `0` and `-7` parse successfully and pass
configuration validation, so a run reaches the broadcast phase with
`chunk_size ≤ 0`: validation never aborts on non-positive values. -/
theorem c5_counterexample_nonpositive_accepted :
    chunkSizeConfig ["naive_bcast", "-c", "0"] = some 0 ∧
    chunkSizeConfig ["naive_bcast", "-c", "-7"] = some (-7) := by
  decide

/-- C5 (amended): configuration validation of the chunk size fails exactly
when some `-c` flag is not followed by an argument parseable as a decimal
integer; any parsed value — zero and negative values included — is
accepted, so reaching the broadcast phase does not imply `chunk_size ≥ 1`. -/
theorem c5_validation_characterisation (args : List String) (cur : Int) :
    (scanChunkArg args cur).isSome = wellFormedChunkArgs args := by
  induction args generalizing cur with
  | nil => rfl
  | cons a rest ih =>
    simp only [scanChunkArg, wellFormedChunkArgs]
    by_cases ha : a = "-c"
    · rw [if_pos ha, if_pos ha]
      cases rest with
      | nil => rfl
      | cons b rest' =>
        cases hp : parseIntC b with
        | none => simp [hp]
        | some v => simp [hp, ih v]
    · rw [if_neg ha, if_neg ha]
      exact ih cur

/-- C8 counterexample: with the program's `NUM_BYTES = 100000000` and an
operator-configured chunk size of 7, the chunking loop's last iteration
resets `chunk_size` to `100000000 % 7 = 2`, so the timing line reports
`chunksize: 2`, not the configured 7. -/
theorem c8_counterexample_printed_chunksize :
    printedChunkSize 100000000 7 = 2 ∧ (2 : Nat) ≠ 7 := by
  constructor
  · rw [printedChunkSize, chunkVarFinal_spec 100000000 7 (by decide) (by decide)]
    decide
  · decide

/-- C8 (amended): the timing line is printed iff the printing process is
rank 0 and the run was consistent; its chunk-size field is the final value
of the mutated `chunk_size` variable — the configured value when it divides
the byte count (or the strategy never chunks), otherwise
`NUM_BYTES % chunk_size`, the last chunk's length. -/
theorem c8_reporting_amended (rank : Nat) (allOk : Bool) (total cs : Nat)
    (ht : 1 ≤ total) (hcs : 1 ≤ cs) :
    (timingPrinted rank allOk = true ↔ rank = 0 ∧ allOk = true) ∧
    printedChunkSize total cs = (if total % cs = 0 then cs else total % cs) := by
  constructor
  · simp [timingPrinted]
  · exact chunkVarFinal_spec total cs ht hcs

theorem c8_reporting_amended_witness :
    ((timingPrinted 0 true = true ↔ 0 = 0 ∧ true = true) ∧
    printedChunkSize 16 5 = (if 16 % 5 = 0 then 5 else 16 % 5)) :=
  c8_reporting_amended 0 true 16 5 (by decide) (by decide)

/-- C6 counterexample: at group size 1 the ring strategy does not degenerate
to a no-op — rank 0 still executes `MPI_Send(buffer, NUM_BYTES, rank+1, ...)`,
a send addressed to nonexistent rank 1 (4-byte payload shown). -/
theorem c6_counterexample_ring_sends_at_size1 :
    ringProg 1 4 0 = [Op.send 1 0 4] := by
  decide

/-- C6 (amended): at group size 1 the substrate (default) broadcast, the
naive fan-out and the binary tree degenerate to no-op broadcasts — no sends
or receives — and the harness receives zero checksum messages, stays
consistent and prints the timing line; but the ring, pipelined ring and
asynchronous pipelined ring each attempt a send to nonexistent rank 1 and
the run fails. -/
theorem c6_size_one_amended (n cs : Nat) (ref : Int) (rootBuf : Buf)
    (hn : 1 ≤ n) (hcs : 1 ≤ cs) :
    naiveProg 1 n 0 = [] ∧
    bintreeProg 1 n cs 0 = [Op.waitAll] ∧
    defaultBcastRun [rootBuf] = [rootBuf] ∧
    runRanks 1 (ringProg 1 n) [rootBuf] = none ∧
    runRanks 1 (pipelinedRingProg 1 n cs) [rootBuf] = none ∧
    runRanks 1 (asyncPipelinedRingProg 1 n cs) [rootBuf] = none ∧
    drainChecksums ref [] = (true, 0) ∧
    timingPrinted 0 true = true := by
  refine ⟨?_, ?_, ?_, runRanks_ring_one n [rootBuf],
    runRanks_pipelined_one n cs hn [rootBuf],
    runRanks_asyncRing_one n cs hn [rootBuf], rfl, rfl⟩
  · simp [naiveProg]
  · simp [bintreeProg, flatMap_const_nil]
  · simp [defaultBcastRun, List.getD]

theorem c6_size_one_amended_witness :
    (naiveProg 1 4 0 = [] ∧
    bintreeProg 1 4 3 0 = [Op.waitAll] ∧
    defaultBcastRun [[1, 2, 3, 4]] = [[1, 2, 3, 4]] ∧
    runRanks 1 (ringProg 1 4) [[1, 2, 3, 4]] = none ∧
    runRanks 1 (pipelinedRingProg 1 4 3) [[1, 2, 3, 4]] = none ∧
    runRanks 1 (asyncPipelinedRingProg 1 4 3) [[1, 2, 3, 4]] = none ∧
    drainChecksums 0 [] = (true, 0) ∧
    timingPrinted 0 true = true) :=
  c6_size_one_amended 4 3 0 [1, 2, 3, 4] (by decide) (by decide)

theorem c3_chunk_plan_covers_witness :
    (1 ≤ 16 ∧ 1 ≤ 5) ∧
    (contiguousFrom 0 (chunkPlan 16 5) ∧
     lensSum (chunkPlan 16 5) = 16 ∧
     chunkPlan 16 5 = [(0, 5), (5, 5), (10, 5), (15, 1)]) :=
  ⟨by decide, c3_chunk_plan_covers 16 5 (by decide) (by decide)⟩

end Bcast

